import Mathlib

/-!
Verification of the download-and-package pipeline of
`img_downloader_web_zip_only.py` (a Flask image-batch downloader).

The Python source is shallowly embedded below.  Pure helpers
(`sanitize_filename`, `extract_filename_from_url`, `os.path.splitext`,
`urllib.parse.urlparse` path extraction) become Lean functions on
`String`/`List Char`.  The stateful worker `download_worker` becomes a
function from the submitted URL list — paired with a network oracle
`FetchOutcome` describing what each `requests.get` streams back — to the
final item store, the zip-archive entries, and the ordered list of
snapshots pushed onto the task's `queue.Queue`.  Machine integers are
`Nat` (Python ints are unbounded; the only division, the progress
percentage, is modelled by `Nat` floor division, which agrees with
CPython's `int(d * 100 / total)` for all realistically sized inputs).
-/

/-! ## Filename sanitisation (`sanitize_filename`, lines 66-75) -/

/-- Character class of the regex `[^A-Za-z0-9._\-]` used by
`_filename_sanitize_re`: `true` exactly on the characters the regex does
NOT replace. -/
def isAllowedChar (c : Char) : Bool :=
  (65 ≤ c.toNat && c.toNat ≤ 90) || (97 ≤ c.toNat && c.toNat ≤ 122) ||
  (48 ≤ c.toNat && c.toNat ≤ 57) || c == '.' || c == '_' || c == '-'

/-- Embedding of `sanitize_filename(name, max_len)`: empty input falls back
to `"file"`, characters outside `[A-Za-z0-9._-]` become `_`, and the result
is truncated to `max_len` characters. -/
def sanitize_filename (name : String) (maxLen : Nat) : String :=
  let n := if name.data.isEmpty then ("file") else name
  let n2 := String.mk (n.data.map (fun c => if isAllowedChar c then c else '_'))
  if maxLen < n2.data.length then String.mk (n2.data.take maxLen) else n2

/-! ## `os.path.splitext` (posix `genericpath._splitext`) -/

/-- Embedding of posix `os.path.splitext`: split off the extension at the
last dot of the final path segment, ignoring leading dots of that segment
(so `".jpg"` has no extension while `"a.jpg"` does). -/
def splitext (p : String) : String × String :=
  let s := p.data
  let base := (s.reverse.takeWhile (fun c => c ≠ '/')).reverse
  let dir := (s.reverse.dropWhile (fun c => c ≠ '/')).reverse
  let lead := base.takeWhile (fun c => c = '.')
  let rest := base.dropWhile (fun c => c = '.')
  let extR := rest.reverse.takeWhile (fun c => c ≠ '.')
  let remR := rest.reverse.dropWhile (fun c => c ≠ '.')
  if remR.isEmpty then (p, String.mk [])
  else (String.mk (dir ++ lead ++ (remR.drop 1).reverse), String.mk ('.' :: extR.reverse))

/-! ## Decimal rendering of a Python int (for the `f"{base}_{suffix}{ext}"`
collision suffix).  Fuel-based so that it reduces definitionally. -/

/-- Decimal digit character for a value below ten. -/
def digitChar (d : Nat) : Char := Char.ofNat (48 + d)

/-- Decimal digit list of `n`, most significant first; `fuel` bounds the
recursion depth and any `fuel > n` is enough. -/
def natDigitsAux : Nat → Nat → List Char
  | 0, _ => []
  | fuel + 1, n =>
    if n < 10 then [digitChar n]
    else natDigitsAux fuel (n / 10) ++ [digitChar (n % 10)]

/-- Decimal string of a natural number, as Python's `str`/f-string prints
a nonnegative int. -/
def natRepr (n : Nat) : String := String.mk (natDigitsAux (n + 1) n)

/-- Left inverse of `natDigitsAux`, used to prove injectivity of
`natRepr`. -/
def unDigits (cs : List Char) : Nat :=
  cs.foldl (fun a c => a * 10 + (c.toNat - 48)) 0

/-! ## Collision-avoiding unique name (`download_worker`, lines 188-194) -/

/-- The candidate name `f"{base}_{suffix}{ext}"` tried for collision
suffix `k`. -/
def mkCand (base ext : String) (k : Nat) : String :=
  base ++ "_" ++ natRepr k ++ ext

/-- Embedding of the `while any(it["name"] == unique_name ...)` loop:
starting from `cur` and suffix `suffix`, keep moving to the next candidate
while the current one is in `names`.  `fuel` bounds the iterations;
`names.length + 1` is always sufficient. -/
def dedupLoop (names : List String) (base ext : String) : String → Nat → Nat → String
  | cur, _, 0 => cur
  | cur, suffix, fuel + 1 =>
    if cur ∈ names then dedupLoop names base ext (mkCand base ext suffix) (suffix + 1) fuel
    else cur

/-- Resolved unique name for `filename` against the names already used in
this task: the de-duplication step of `download_worker`. -/
def makeUnique (names : List String) (filename : String) : String :=
  dedupLoop names (splitext filename).1 (splitext filename).2 filename 1 (names.length + 1)

/-! ## URL path extraction (`urllib.parse.urlparse(...).path`)

Modelled on CPython's `urlsplit`/`urlparse` (3.9-3.10 line): tab/CR/LF
are removed, a leading `scheme:` is split off when well formed, a
`//netloc` part is consumed up to the next `/?#` (raising `ValueError`
— modelled as `Except.error` — on unbalanced square brackets), the
fragment and query are cut at the first `#`/`?`, and `;params` is split
off the last path segment. -/

/-- ASCII letter test (`str.isascii() and str.isalpha()` on one char). -/
def isAsciiAlpha (c : Char) : Bool :=
  (65 ≤ c.toNat && c.toNat ≤ 90) || (97 ≤ c.toNat && c.toNat ≤ 122)

/-- Characters allowed in a URL scheme (`scheme_chars`). -/
def isSchemeChar (c : Char) : Bool :=
  isAsciiAlpha c || (48 ≤ c.toNat && c.toNat ≤ 57) || c == '+' || c == '-' || c == '.'

/-- Removal of the unsafe bytes `\t`, `\r`, `\n` done by `urlsplit`. -/
def stripControlChars (s : List Char) : List Char :=
  s.filter (fun c => !(c == '\t' || c == '\r' || c == '\n'))

/-- Drop a well-formed `scheme:` prefix, as `urlsplit` does: there must be
a colon, a nonempty candidate before it starting with an ASCII letter and
consisting of scheme characters. -/
def stripScheme (s : List Char) : List Char :=
  let pre := s.takeWhile (fun c => c ≠ ':')
  let rest := s.dropWhile (fun c => c ≠ ':')
  match rest with
  | [] => s
  | _ :: tail =>
    match pre with
    | [] => s
    | c :: _ => if isAsciiAlpha c && pre.all isSchemeChar then tail else s

/-- Consume `//netloc` up to the next `/`, `?` or `#`; error on unbalanced
square brackets in the netloc (CPython raises `ValueError "Invalid IPv6
URL"`). -/
def splitNetloc (s : List Char) : Except Unit (List Char) :=
  match s with
  | '/' :: '/' :: rest =>
    let netloc := rest.takeWhile (fun c => !(c == '/' || c == '?' || c == '#'))
    let remainder := rest.dropWhile (fun c => !(c == '/' || c == '?' || c == '#'))
    if (netloc.contains '[' && !netloc.contains ']') ||
       (netloc.contains ']' && !netloc.contains '[') then Except.error ()
    else Except.ok remainder
  | _ => Except.ok s

/-- The `_splitparams` step of `urlparse`: remove `;params` from the last
path segment. -/
def splitParams (s : List Char) : List Char :=
  if s.contains '/' then
    let segR := s.reverse.takeWhile (fun c => c ≠ '/')
    let dirR := s.reverse.dropWhile (fun c => c ≠ '/')
    dirR.reverse ++ segR.reverse.takeWhile (fun c => c ≠ ';')
  else s.takeWhile (fun c => c ≠ ';')

/-- Embedding of `urllib.parse.urlparse(clean).path` together with its
`ValueError` failure mode. -/
def pyUrlparsePath (clean : String) : Except Unit String :=
  let s := stripControlChars clean.data
  let s1 := stripScheme s
  match splitNetloc s1 with
  | Except.error e => Except.error e
  | Except.ok s2 =>
    let s3 := (s2.takeWhile (fun c => c ≠ '#')).takeWhile (fun c => c ≠ '?')
    Except.ok (String.mk (splitParams s3))

/-- Embedding of posix `os.path.basename`: everything after the last
`/`. -/
def basenameStr (path : String) : String :=
  String.mk ((path.data.reverse.takeWhile (fun c => c ≠ '/')).reverse)

/-- Embedding of `extract_filename_from_url` (lines 77-96): strip the
query at the first `?`, take the basename of the parsed path, default to
`"file.jpg"` when empty, append `".jpg"` when there is no dot, sanitize;
on a parse error fall back to the sanitized default name. -/
def extract_filename_from_url (url : String) : String :=
  let clean := String.mk (url.data.takeWhile (fun c => c ≠ '?'))
  match pyUrlparsePath clean with
  | Except.error _ => sanitize_filename ("file.jpg") 200
  | Except.ok path =>
    let b := basenameStr path
    let b1 := if b.data.isEmpty then ("file.jpg") else b
    let b2 := if b1.data.contains '.' then b1 else b1 ++ ".jpg"
    sanitize_filename b2 200

/-! ## The download worker (`download_worker`, lines 177-243) -/

/-- One per-URL progress record, the dict
`{"name": ..., "status": ..., "progress": ...}`. -/
structure Item where
  name : String
  status : String
  progress : Nat
  deriving DecidableEq, Repr

/-- Status string of an item whose download is in flight. -/
def statusFetching : String := "下载中"

/-- Status string of a successfully downloaded item. -/
def statusDone : String := "完成"

/-- Status string of a failed item, carrying the exception text. -/
def statusFailed (reason : String) : String := "失败: " ++ reason

/-- A value pushed onto the task queue: `{"items": items.copy(), "done": b}`.
`view` records the item values at the moment of emission (the Python
object actually enqueued shares the item dicts with the worker; see
`lateView`). -/
structure ProgressPut where
  view : List Item
  done : Bool
  deriving DecidableEq, Repr

/-- Network oracle for one URL: either the streaming GET succeeds after
yielding `chunks` (with `total` the parsed `content-length` header, `0`
when absent), or it raises after yielding `chunks`, with exception text
`reason`.  A non-2xx status or connection error is a `failure` with no
chunks. -/
inductive FetchOutcome where
  | success (total : Nat) (chunks : List (List Nat))
  | failure (total : Nat) (chunks : List (List Nat)) (reason : String)
  deriving DecidableEq, Repr

/-- The per-chunk progress computation
`int(downloaded * 100 / total) if total else 100` (lines 212-215). -/
def chunkProgress (total d : Nat) : Nat :=
  if total ≠ 0 then d * 100 / total else 100

/-- The chunks `requests` actually delivers: `iter_content` values with
the falsy (empty) ones skipped by `if not chunk: continue`. -/
def nonemptyChunks (cs : List (List Nat)) : List (List Nat) :=
  cs.filter (fun c => !c.isEmpty)

/-- Embedding of the `for chunk in r.iter_content(...)` loop: fold over
the chunks, skipping empty ones, accumulating the byte count, updating the
current item's progress and emitting one snapshot per chunk.  Returns the
final item value, the final byte count, and the emitted snapshots.
`base` is the (unchanged) list of previously completed items. -/
def streamChunksAux (base : List Item) (total : Nat) :
    List (List Nat) → Item → Nat → Item × Nat × List ProgressPut
  | [], it, d => (it, d, [])
  | c :: rest, it, d =>
    if c.isEmpty then streamChunksAux base total rest it d
    else
      let d2 := d + c.length
      let it2 : Item := { it with progress := chunkProgress total d2 }
      let r := streamChunksAux base total rest it2 d2
      (r.1, r.2.1, ProgressPut.mk (base ++ [it2]) false :: r.2.2)

/-- Processing of a single URL inside `download_worker`'s main loop:
resolve and de-duplicate the file name, append the new item, emit a
snapshot, stream the response per the oracle, and finish the item as
succeeded (writing one zip entry) or failed.  Returns the new store, the
zip entries written, and the snapshots emitted. -/
def processUrl (st : List Item) (url : String) (oc : FetchOutcome) :
    List Item × List (String × List Nat) × List ProgressPut :=
  let filename := extract_filename_from_url url
  let uniq := makeUnique (st.map Item.name) filename
  let item0 : Item := ⟨uniq, statusFetching, 0⟩
  let put0 := ProgressPut.mk (st ++ [item0]) false
  match oc with
  | FetchOutcome.success total chunks =>
    let r := streamChunksAux st total chunks item0 0
    let itDone : Item := { r.1 with status := statusDone, progress := 100 }
    (st ++ [itDone], [(uniq, (nonemptyChunks chunks).flatten)],
      put0 :: r.2.2 ++ [ProgressPut.mk (st ++ [itDone]) false])
  | FetchOutcome.failure total chunks reason =>
    let r := streamChunksAux st total chunks item0 0
    let itFail : Item := { r.1 with status := statusFailed reason, progress := 100 }
    (st ++ [itFail], [],
      put0 :: r.2.2 ++ [ProgressPut.mk (st ++ [itFail]) false])

/-- Sequential processing of the whole URL list starting from store
`st`. -/
def runAux : List (String × FetchOutcome) → List Item →
    List Item × List (String × List Nat) × List ProgressPut
  | [], st => (st, [], [])
  | (url, oc) :: rest, st =>
    let r1 := processUrl st url oc
    let r2 := runAux rest r1.1
    (r2.1, r1.2.1 ++ r2.2.1, r1.2.2 ++ r2.2.2)

/-- Result of one task execution: the final item store, the zip archive
entries written to `tmp_zip/<task_id>.zip` (in write order), and the full
ordered queue contents. -/
structure RunResult where
  items : List Item
  zipEntries : List (String × List Nat)
  puts : List ProgressPut
  deriving DecidableEq, Repr

/-- Embedding of `download_worker(urls, q, task_id)`, with the network
behaviour of each URL supplied by its paired `FetchOutcome`.  After the
loop the zip buffer is unconditionally written to disk and the terminal
`done=True` snapshot is enqueued. -/
def download_worker (inputs : List (String × FetchOutcome)) : RunResult :=
  let r := runAux inputs []
  ⟨r.1, r.2.1, r.2.2 ++ [ProgressPut.mk r.1 true]⟩

/-! ## The SSE consumer (`progress_stream`, lines 246-266) -/

/-- Embedding of the `event_stream` loop: snapshots are taken from the
queue in FIFO order and yielded one by one; the loop breaks right after
yielding the first snapshot with `done=True`. -/
def deliverStream : List ProgressPut → List ProgressPut
  | [] => []
  | p :: ps => if p.done then [p] else p :: deliverStream ps

/-- What a consumer that serialises a buffered snapshot only after the
worker has finished actually reads.  The Python queue holds
`items.copy()` — a shallow copy: the list cells are fresh but they point
at the very dicts the worker keeps mutating, so `json.dumps` performed at
read time renders the items' current field values.  The snapshot fixes
only the number of items (its list of references); the fields come from
the final store. -/
def lateView (finalItems : List Item) (p : ProgressPut) : List Item :=
  finalItems.take p.view.length

/-! ## Task submission (`start`, lines 269-288) -/

/-- Python line-break characters recognised by `str.splitlines`. -/
def isLineBreakChar (c : Char) : Bool :=
  c.toNat == 10 || c.toNat == 13 || c.toNat == 11 || c.toNat == 12 ||
  c.toNat == 28 || c.toNat == 29 || c.toNat == 30 || c.toNat == 133 ||
  c.toNat == 0x2028 || c.toNat == 0x2029

/-- Embedding of `str.splitlines` (fuel-based; `s.length + 1` fuel is
always enough): split at line-break characters, treating `\r\n` as one
boundary, and yielding no trailing empty line for a terminal break. -/
def pySplitlinesAux : Nat → List Char → List (List Char)
  | _, [] => []
  | 0, l => [l]
  | fuel + 1, l =>
    let line := l.takeWhile (fun c => !isLineBreakChar c)
    let rest := l.dropWhile (fun c => !isLineBreakChar c)
    match rest with
    | [] => [line]
    | c :: tail =>
      if c == '\r' && tail.headD ' ' == '\n' then line :: pySplitlinesAux fuel tail.tail
      else line :: pySplitlinesAux fuel tail

/-- Python `str.splitlines`. -/
def pySplitlines (s : List Char) : List (List Char) :=
  pySplitlinesAux (s.length + 1) s

/-- Characters Python's `str.strip()` removes (`str.isspace`). -/
def isPySpaceChar (c : Char) : Bool :=
  [9, 10, 11, 12, 13, 28, 29, 30, 31, 32, 133, 160, 0x1680,
   0x2000, 0x2001, 0x2002, 0x2003, 0x2004, 0x2005, 0x2006, 0x2007,
   0x2008, 0x2009, 0x200a, 0x2028, 0x2029, 0x202f, 0x205f, 0x3000].contains c.toNat

/-- Python `str.strip()` on a character list. -/
def pyStrip (l : List Char) : List Char :=
  ((l.dropWhile isPySpaceChar).reverse.dropWhile isPySpaceChar).reverse

/-- Embedding of `[u.strip() for u in raw.splitlines() if u.strip()]`. -/
def parseUrls (raw : String) : List String :=
  (((pySplitlines raw.data).map pyStrip).filter (fun l => !l.isEmpty)).map String.mk

/-- Observable outcome of the `/start` handler: HTTP status, the task id
returned (if any), the registry of progress queues after the call, and
whether a worker thread was started. -/
structure StartResult where
  httpStatus : Nat
  taskId : Option String
  registry : List String
  workerStarted : Bool
  deriving DecidableEq, Repr

/-- Embedding of `start()`: an empty parsed URL list is rejected with 400
before the task id is generated, the queue registered or the worker
thread started; otherwise the fresh id is registered and the worker
launched.  `freshId` stands for the `uuid4` the handler would generate. -/
def start (raw : String) (freshId : String) (reg : List String) : StartResult :=
  if (parseUrls raw).isEmpty then ⟨400, none, reg, false⟩
  else ⟨200, some freshId, reg ++ [freshId], true⟩

/-! ## Derived notions used by the statements -/

/-- Total number of payload bytes in a chunk list. -/
def sumBytes (cs : List (List Nat)) : Nat := (cs.map List.length).sum

/-- Bytes accumulated once the `k`-th nonempty chunk (0-based) has been
consumed. -/
def bytesThrough (cs : List (List Nat)) (k : Nat) : Nat :=
  sumBytes ((nonemptyChunks cs).take (k + 1))

/-- A network outcome whose delivered byte count does not exceed the
advertised `content-length` (or whose length is unknown).  An HTTP
exchange violating this — e.g. a gzip-encoded body decoded by
`iter_content` past the compressed `content-length` — drives the
unclamped progress computation above 100. -/
def okOutcome : FetchOutcome → Prop
  | FetchOutcome.success total chunks => total = 0 ∨ sumBytes chunks ≤ total
  | FetchOutcome.failure total chunks _ => total = 0 ∨ sumBytes chunks ≤ total

/-- A status string marking a finished item. -/
def isTerminalStatus (s : String) : Prop :=
  s = statusDone ∨ ∃ r, s = statusFailed r

/-- The names the de-duplication assigns, URL by URL, given the names
already used. -/
def expectedNamesAux (used : List String) : List String → List String
  | [] => []
  | u :: rest =>
    let nm := makeUnique used (extract_filename_from_url u)
    nm :: expectedNamesAux (used ++ [nm]) rest

/-- Step relation between the item lists of two consecutive snapshots:
the earlier name list is a prefix of the later one and at most one item
is appended. -/
def nameStep (s t : List Item) : Prop :=
  (s.map Item.name) <+: (t.map Item.name) ∧ t.length ≤ s.length + 1

/-- Pointwise evolution order between two snapshots' item lists: the list
can only grow, and an item at a fixed position keeps its name and never
decreases its progress. -/
def viewLe (s t : List Item) : Prop :=
  s.length ≤ t.length ∧
  ∀ (k : Nat) a b, s[k]? = some a → t[k]? = some b →
    a.name = b.name ∧ a.progress ≤ b.progress

/-- The item an URL ends up as once its processing has finished: named by
the de-duplicated resolved file name, marked succeeded or failed per the
network outcome, progress pinned to 100. -/
def finalItem (used : List String) (url : String) (oc : FetchOutcome) : Item :=
  match oc with
  | FetchOutcome.success _ _ =>
    ⟨makeUnique used (extract_filename_from_url url), statusDone, 100⟩
  | FetchOutcome.failure _ _ r =>
    ⟨makeUnique used (extract_filename_from_url url), statusFailed r, 100⟩

/-- The items a run appends for its URL list, given the names already
used. -/
def newItemsList : List (String × FetchOutcome) → List String → List Item
  | [], _ => []
  | (u, oc) :: rest, used =>
    let fi := finalItem used u oc
    fi :: newItemsList rest (used ++ [fi.name])

/-- The zip entry contributed by one processed URL: successful fetches
store the assembled payload under the item's unique name, failures store
nothing. -/
def entryOf (x : (String × FetchOutcome) × Item) : Option (String × List Nat) :=
  match x.1.2 with
  | FetchOutcome.success _ cs => some (x.2.name, (nonemptyChunks cs).flatten)
  | FetchOutcome.failure _ _ _ => none

/-! ## Basic facts about the decimal suffix -/

/-- Value of a digit character produced by `digitChar`. -/
theorem digitChar_toNat {d : Nat} (hd : d < 10) : (digitChar d).toNat = 48 + d := by
  interval_cases d <;> rfl

/-- Folding one more digit. -/
theorem unDigits_append (l : List Char) (c : Char) :
    unDigits (l ++ [c]) = unDigits l * 10 + (c.toNat - 48) := by
  simp [unDigits, List.foldl_append]

/-- With enough fuel, `unDigits` reads back the number rendered by
`natDigitsAux`. -/
theorem unDigits_natDigitsAux : ∀ fuel n, n < fuel → unDigits (natDigitsAux fuel n) = n := by
  intro fuel
  induction fuel with
  | zero => intro n h; omega
  | succ f ih =>
    intro n h
    by_cases h10 : n < 10
    · simp only [natDigitsAux, if_pos h10]
      simp [unDigits, digitChar_toNat h10]
    · have hlt : n / 10 < n := Nat.div_lt_self (by omega) (by omega)
      have hrec : n / 10 < f := by omega
      simp only [natDigitsAux, if_neg h10]
      rw [unDigits_append, ih _ hrec, digitChar_toNat (Nat.mod_lt _ (by omega))]
      have := Nat.div_add_mod n 10
      omega

/-- Decimal rendering is injective. -/
theorem natRepr_injective : Function.Injective natRepr := by
  intro a b h
  have hdat : natDigitsAux (a + 1) a = natDigitsAux (b + 1) b := by
    have := congrArg String.data h
    simpa [natRepr] using this
  have ha := unDigits_natDigitsAux (a + 1) a (by omega)
  have hb := unDigits_natDigitsAux (b + 1) b (by omega)
  rw [← ha, ← hb, hdat]

/-- The digit list is never empty (with positive fuel). -/
theorem natDigitsAux_ne_nil (f n : Nat) (h : n < f) : natDigitsAux f n ≠ [] := by
  cases f with
  | zero => omega
  | succ f =>
    by_cases h10 : n < 10 <;> simp [natDigitsAux, h10]

/-- A rendered number has at least one character. -/
theorem natRepr_length_pos (n : Nat) : 0 < (natRepr n).length := by
  have := natDigitsAux_ne_nil (n + 1) n (by omega)
  cases hd : natDigitsAux (n + 1) n with
  | nil => exact absurd hd this
  | cons c l => simp [natRepr, String.length, hd]

/-- Candidate names for distinct suffixes are distinct. -/
theorem mkCand_injective (base ext : String) : Function.Injective (mkCand base ext) := by
  intro j k h
  have hdat := congrArg String.data h
  simp only [mkCand, String.data_append, List.append_assoc, List.singleton_append] at hdat
  have h1 := List.append_cancel_left hdat
  injection h1 with _ h2
  have h3 := List.append_cancel_right h2
  exact natRepr_injective (String.ext h3)

/-- Length of a candidate name. -/
theorem mkCand_length (base ext : String) (k : Nat) :
    (mkCand base ext k).length = base.length + 1 + (natRepr k).length + ext.length := by
  have h1 : ("_" : String).length = 1 := rfl
  simp [mkCand, String.length_append, h1]

/-! ## Facts about `splitext` -/

/-- The first element of a `dropWhile` result falsifies the predicate. -/
theorem dropWhile_head_false {α} (p : α → Bool) :
    ∀ (l : List α) (c : α) (tl : List α), l.dropWhile p = c :: tl → p c = false := by
  intro l
  induction l with
  | nil => intro c tl h; simp [List.dropWhile] at h
  | cons a l ih =>
    intro c tl h
    by_cases ha : p a
    · rw [List.dropWhile_cons_of_pos ha] at h; exact ih c tl h
    · rw [List.dropWhile_cons_of_neg ha] at h
      cases h
      simpa using ha

/-- Base and extension reassemble into the original name. -/
theorem splitext_append (p : String) : (splitext p).1 ++ (splitext p).2 = p := by
  unfold splitext
  set s := p.data with hs
  set base := (s.reverse.takeWhile (fun c => c ≠ '/')).reverse with hbase
  set dir := (s.reverse.dropWhile (fun c => c ≠ '/')).reverse with hdir
  set rest := base.dropWhile (fun c => c = '.') with hrest
  set lead := base.takeWhile (fun c => c = '.') with hlead
  set extR := rest.reverse.takeWhile (fun c => c ≠ '.') with hextR
  set remR := rest.reverse.dropWhile (fun c => c ≠ '.') with hremR
  have hdirbase : dir ++ base = s := by
    rw [hdir, hbase, ← List.reverse_append, List.takeWhile_append_dropWhile, List.reverse_reverse]
  have hleadrest : lead ++ rest = base := by
    rw [hlead, hrest, List.takeWhile_append_dropWhile]
  have hrestsplit : extR ++ remR = rest.reverse := by
    rw [hextR, hremR, List.takeWhile_append_dropWhile]
  by_cases hrem : remR.isEmpty
  · simp only [if_pos hrem]
    apply String.ext
    simp
  · simp only [if_neg hrem]
    apply String.ext
    have hcons : ∃ tl, remR = '.' :: tl := by
      cases hr : remR with
      | nil => rw [hr] at hrem; simp at hrem
      | cons c tl =>
        have hc := dropWhile_head_false (fun c => c ≠ '.') rest.reverse c tl (hremR ▸ hr)
        simp at hc
        exact ⟨tl, by rw [hc]⟩
    obtain ⟨tl, htl⟩ := hcons
    have hrest2 : rest = tl.reverse ++ '.' :: extR.reverse := by
      have : rest.reverse.reverse = (extR ++ remR).reverse := by rw [hrestsplit]
      rw [List.reverse_reverse] at this
      rw [this, htl]
      simp
    show (dir ++ lead ++ (remR.drop 1).reverse) ++ '.' :: extR.reverse = s
    rw [htl]
    simp only [List.drop_one, List.tail_cons]
    rw [List.append_assoc, List.append_assoc, ← hrest2, hleadrest, hdirbase]

/-! ## Correctness of the de-duplication loop -/

/-- If the current candidate is already free, the loop returns it at
once. -/
theorem dedupLoop_not_mem (names : List String) (b e cur : String) (s : Nat)
    (h : cur ∉ names) : ∀ fuel, dedupLoop names b e cur s fuel = cur := by
  intro fuel; cases fuel <;> simp [dedupLoop, h]

/-- As long as some candidate within the fuel range is free, the loop
returns the first free candidate at or after the current suffix. -/
theorem dedupLoop_spec (names : List String) (b e : String) :
    ∀ fuel suffix cur, cur ∈ names →
      (∃ k, suffix ≤ k ∧ k < suffix + fuel ∧ mkCand b e k ∉ names) →
      ∃ k, suffix ≤ k ∧ dedupLoop names b e cur suffix fuel = mkCand b e k ∧
        mkCand b e k ∉ names ∧ ∀ j, suffix ≤ j → j < k → mkCand b e j ∈ names := by
  intro fuel
  induction fuel with
  | zero =>
    intro suffix cur _ hex
    obtain ⟨k, h1, h2, _⟩ := hex
    omega
  | succ f ih =>
    intro suffix cur hcur hex
    rw [show dedupLoop names b e cur suffix (f + 1) =
        dedupLoop names b e (mkCand b e suffix) (suffix + 1) f by simp [dedupLoop, hcur]]
    by_cases hc : mkCand b e suffix ∈ names
    · obtain ⟨k0, hk1, hk2, hk3⟩ := hex
      have hk0 : suffix + 1 ≤ k0 := by
        rcases Nat.eq_or_lt_of_le hk1 with he | hl
        · exact absurd (he ▸ hc) hk3
        · omega
      obtain ⟨k, hk, hres, hnot, hall⟩ := ih (suffix + 1) (mkCand b e suffix) hc ⟨k0, hk0, by omega, hk3⟩
      refine ⟨k, by omega, hres, hnot, ?_⟩
      intro j hj1 hj2
      by_cases hj : j = suffix
      · rw [hj]; exact hc
      · exact hall j (by omega) hj2
    · rw [dedupLoop_not_mem names b e _ _ hc]
      exact ⟨suffix, le_refl _, rfl, hc, fun j h1 h2 => by omega⟩

/-- Pigeonhole: among the first `names.length + 1` candidate suffixes
there is one whose candidate name is unused. -/
theorem exists_cand_not_mem (names : List String) (b e : String) :
    ∃ k, 1 ≤ k ∧ k < names.length + 2 ∧ mkCand b e k ∉ names := by
  by_contra h
  push_neg at h
  have hinj : Function.Injective (fun i : Fin (names.length + 1) => mkCand b e (i.1 + 1)) := by
    intro i j hij
    have := mkCand_injective b e hij
    exact Fin.ext (by omega)
  have hsub : (Finset.univ.image (fun i : Fin (names.length + 1) => mkCand b e (i.1 + 1))) ⊆
      names.toFinset := by
    intro x hx
    simp only [Finset.mem_image, Finset.mem_univ, true_and] at hx
    obtain ⟨i, rfl⟩ := hx
    rw [List.mem_toFinset]
    exact h _ (by omega) (by omega)
  have hcard := Finset.card_le_card hsub
  rw [Finset.card_image_of_injective _ hinj, Finset.card_univ, Fintype.card_fin] at hcard
  have := List.toFinset_card_le names
  omega

/-- Full characterisation of the unique-name resolution: a fresh name is
kept as is; a colliding name receives the smallest suffix `_k` (before
the extension) making it fresh. -/
theorem makeUnique_spec (names : List String) (f : String) :
    (f ∉ names → makeUnique names f = f) ∧
    (f ∈ names → ∃ k, 1 ≤ k ∧
      makeUnique names f = mkCand (splitext f).1 (splitext f).2 k ∧
      mkCand (splitext f).1 (splitext f).2 k ∉ names ∧
      ∀ j, 1 ≤ j → j < k → mkCand (splitext f).1 (splitext f).2 j ∈ names) := by
  constructor
  · intro h
    exact dedupLoop_not_mem names _ _ f 1 h _
  · intro h
    obtain ⟨k0, hk1, hk2, hk3⟩ := exists_cand_not_mem names (splitext f).1 (splitext f).2
    obtain ⟨k, hk, hres, hnot, hall⟩ :=
      dedupLoop_spec names (splitext f).1 (splitext f).2 (names.length + 1) 1 f h
        ⟨k0, hk1, by omega, hk3⟩
    exact ⟨k, hk, hres, hnot, hall⟩

/-- The resolved name never collides with the names already used. -/
theorem makeUnique_not_mem (names : List String) (f : String) :
    makeUnique names f ∉ names := by
  by_cases h : f ∈ names
  · obtain ⟨k, _, heq, hnot, _⟩ := (makeUnique_spec names f).2 h
    rw [heq]; exact hnot
  · rw [(makeUnique_spec names f).1 h]; exact h

/-! ## Structural facts about the chunk-streaming loop -/

/-- Streaming only touches the progress field of the item in flight. -/
theorem streamChunksAux_fst (base : List Item) (total : Nat) :
    ∀ chunks it d, (streamChunksAux base total chunks it d).1.name = it.name ∧
      (streamChunksAux base total chunks it d).1.status = it.status := by
  intro chunks
  induction chunks with
  | nil => intro it d; exact ⟨rfl, rfl⟩
  | cons c rest ih =>
    intro it d
    by_cases hc : c.isEmpty
    · simpa [streamChunksAux, hc] using ih it d
    · simpa [streamChunksAux, hc] using
        ih { it with progress := chunkProgress total (d + c.length) } (d + c.length)

/-- The loop's final byte count is the sum of all chunk lengths. -/
theorem streamChunksAux_bytes (base : List Item) (total : Nat) :
    ∀ chunks it d, (streamChunksAux base total chunks it d).2.1 = d + sumBytes chunks := by
  intro chunks
  induction chunks with
  | nil => intro it d; simp [streamChunksAux, sumBytes]
  | cons c rest ih =>
    intro it d
    by_cases hc : c.isEmpty
    · have hlen : c.length = 0 := by
        cases c
        · rfl
        · simp at hc
      simp only [streamChunksAux, hc, if_pos]
      rw [ih it d]
      simp [sumBytes, hlen]
    · rw [show (streamChunksAux base total (c :: rest) it d).2.1 =
          (streamChunksAux base total rest
            {it with progress := chunkProgress total (d + c.length)} (d + c.length)).2.1 from by
          simp [streamChunksAux, hc]]
      rw [ih]
      simp [sumBytes]
      omega

/-- Every snapshot the loop emits is not terminal and shows the previous
items unchanged followed by the in-flight item, same name and status,
with a progress computed from some portion of the delivered bytes. -/
theorem streamChunksAux_puts_mem (base : List Item) (total : Nat) :
    ∀ chunks it d p, p ∈ (streamChunksAux base total chunks it d).2.2 →
      p.done = false ∧ ∃ x : Item, p.view = base ++ [x] ∧ x.name = it.name ∧
        x.status = it.status ∧
        ∃ m, m ≤ sumBytes chunks ∧ x.progress = chunkProgress total (d + m) := by
  intro chunks
  induction chunks with
  | nil => intro it d p hp; simp [streamChunksAux] at hp
  | cons c rest ih =>
    intro it d p hp
    by_cases hc : c.isEmpty
    · have hlen : c.length = 0 := by
        cases c
        · rfl
        · simp at hc
      rw [show streamChunksAux base total (c :: rest) it d =
          streamChunksAux base total rest it d by simp [streamChunksAux, hc]] at hp
      obtain ⟨hd, x, hv, hn, hs, m, hm, hprog⟩ := ih it d p hp
      exact ⟨hd, x, hv, hn, hs, m, by simp [sumBytes, hlen] at hm ⊢; omega, hprog⟩
    · rw [show (streamChunksAux base total (c :: rest) it d).2.2 =
          ProgressPut.mk (base ++ [{it with progress := chunkProgress total (d + c.length)}]) false ::
            (streamChunksAux base total rest
              {it with progress := chunkProgress total (d + c.length)} (d + c.length)).2.2 by
          simp [streamChunksAux, hc]] at hp
      rcases List.mem_cons.mp hp with rfl | hp2
      · refine ⟨rfl, _, rfl, rfl, rfl, c.length, ?_, rfl⟩
        simp [sumBytes]
      · obtain ⟨hd, x, hv, hn, hs, m, hm, hprog⟩ := ih _ _ p hp2
        refine ⟨hd, x, hv, hn, hs, c.length + m, ?_, ?_⟩
        · simp [sumBytes] at hm ⊢; omega
        · rw [hprog]; ring_nf

/-- Either the loop emits nothing and leaves the item untouched, or its
last emitted view shows exactly the loop's final item. -/
theorem streamChunksAux_last (base : List Item) (total : Nat) :
    ∀ chunks it d,
      ((streamChunksAux base total chunks it d).2.2 = [] ∧
        (streamChunksAux base total chunks it d).1 = it) ∨
      (∃ l, (streamChunksAux base total chunks it d).2.2.map ProgressPut.view =
        l ++ [base ++ [(streamChunksAux base total chunks it d).1]]) := by
  intro chunks
  induction chunks with
  | nil => intro it d; exact Or.inl ⟨rfl, rfl⟩
  | cons c rest ih =>
    intro it d
    by_cases hc : c.isEmpty
    · simpa [streamChunksAux, hc] using ih it d
    · rw [show streamChunksAux base total (c :: rest) it d =
          (let r := streamChunksAux base total rest
            {it with progress := chunkProgress total (d + c.length)} (d + c.length)
          (r.1, r.2.1,
            ProgressPut.mk (base ++ [{it with progress := chunkProgress total (d + c.length)}]) false
              :: r.2.2)) from by simp [streamChunksAux, hc]]
      simp only []
      rcases ih {it with progress := chunkProgress total (d + c.length)} (d + c.length) with
        ⟨hnil, heq⟩ | ⟨l, hl⟩
      · refine Or.inr ⟨[], ?_⟩
        simp [hnil, heq]
      · refine Or.inr
          ⟨(base ++ [{it with progress := chunkProgress total (d + c.length)}]) :: l, ?_⟩
        simp only [List.map_cons, hl]
        rfl

/-- Number of snapshots emitted by the loop: one per nonempty chunk. -/
theorem streamChunksAux_puts_length (base : List Item) (total : Nat) :
    ∀ chunks it d, (streamChunksAux base total chunks it d).2.2.length =
      (nonemptyChunks chunks).length := by
  intro chunks
  induction chunks with
  | nil => intro it d; simp [streamChunksAux, nonemptyChunks]
  | cons c rest ih =>
    intro it d
    by_cases hc : c.isEmpty
    · rw [show (streamChunksAux base total (c :: rest) it d) =
          streamChunksAux base total rest it d from by simp [streamChunksAux, hc]]
      rw [ih]
      simp [nonemptyChunks, hc]
    · rw [show (streamChunksAux base total (c :: rest) it d).2.2 =
          ProgressPut.mk (base ++ [{it with progress := chunkProgress total (d + c.length)}]) false ::
            (streamChunksAux base total rest
              {it with progress := chunkProgress total (d + c.length)} (d + c.length)).2.2 from by
          simp [streamChunksAux, hc]]
      simp only [List.length_cons, ih]
      simp [nonemptyChunks, hc]

/-- Closed form of the `k`-th emitted snapshot: the items so far followed
by the in-flight item at percentage
`int(bytes_so_far * 100 / total) if total else 100`. -/
theorem streamChunksAux_progress (base : List Item) (total : Nat) :
    ∀ chunks it d k, k < (nonemptyChunks chunks).length →
      (streamChunksAux base total chunks it d).2.2[k]? =
        some (ProgressPut.mk
          (base ++ [{it with progress := chunkProgress total (d + bytesThrough chunks k)}]) false) := by
  intro chunks
  induction chunks with
  | nil => intro it d k hk; simp [nonemptyChunks] at hk
  | cons c rest ih =>
    intro it d k hk
    by_cases hc : c.isEmpty
    · rw [show (streamChunksAux base total (c :: rest) it d) =
          streamChunksAux base total rest it d from by simp [streamChunksAux, hc]]
      have hne : nonemptyChunks (c :: rest) = nonemptyChunks rest := by
        simp [nonemptyChunks, hc]
      rw [hne] at hk
      rw [ih it d k hk]
      have : bytesThrough (c :: rest) k = bytesThrough rest k := by
        simp [bytesThrough, hne]
      rw [this]
    · rw [show (streamChunksAux base total (c :: rest) it d).2.2 =
          ProgressPut.mk (base ++ [{it with progress := chunkProgress total (d + c.length)}]) false ::
            (streamChunksAux base total rest
              {it with progress := chunkProgress total (d + c.length)} (d + c.length)).2.2 from by
          simp [streamChunksAux, hc]]
      have hne : nonemptyChunks (c :: rest) = c :: nonemptyChunks rest := by
        simp [nonemptyChunks, hc]
      cases k with
      | zero =>
        have : bytesThrough (c :: rest) 0 = c.length := by
          simp [bytesThrough, hne, sumBytes]
        simp [this]
      | succ k =>
        rw [hne] at hk
        simp only [List.length_cons, Nat.succ_lt_succ_iff] at hk
        rw [show (ProgressPut.mk
            (base ++ [{it with progress := chunkProgress total (d + c.length)}]) false ::
            (streamChunksAux base total rest
              {it with progress := chunkProgress total (d + c.length)} (d + c.length)).2.2)[k + 1]? =
          (streamChunksAux base total rest
            {it with progress := chunkProgress total (d + c.length)} (d + c.length)).2.2[k]? from by
          simp]
        rw [ih _ _ k hk]
        have hb : (d + c.length) + bytesThrough rest k = d + bytesThrough (c :: rest) (k + 1) := by
          simp [bytesThrough, hne, sumBytes]
          omega
        rw [hb]

/-! ## The snapshot evolution orders -/

/-- Progress percentages grow with the byte count. -/
theorem chunkProgress_mono (total : Nat) {d d' : Nat} (h : d ≤ d') :
    chunkProgress total d ≤ chunkProgress total d' := by
  unfold chunkProgress
  by_cases ht : total ≠ 0
  · simp only [if_pos ht]
    exact Nat.div_le_div_right (Nat.mul_le_mul_right _ h)
  · simp [ht]

/-- The progress percentage stays within 100 whenever the delivered bytes
do not exceed the advertised length (or the length is unknown). -/
theorem chunkProgress_le_100 {total d : Nat} (h : total = 0 ∨ d ≤ total) :
    chunkProgress total d ≤ 100 := by
  unfold chunkProgress
  rcases h with h | h
  · simp [h]
  · by_cases ht : total ≠ 0
    · simp only [if_pos ht]
      calc d * 100 / total ≤ total * 100 / total :=
            Nat.div_le_div_right (Nat.mul_le_mul_right _ h)
        _ = 100 := by
            rw [Nat.mul_comm]
            exact Nat.mul_div_cancel _ (Nat.pos_of_ne_zero ht)
    · simp [ht]

/-- Reflexivity of `viewLe`. -/
theorem viewLe_refl (s : List Item) : viewLe s s := by
  refine ⟨le_refl _, ?_⟩
  intro k a b ha hb
  rw [ha] at hb
  cases hb
  exact ⟨rfl, le_refl _⟩

/-- Transitivity of `viewLe`. -/
theorem viewLe_trans : Transitive viewLe := by
  intro s t u hst htu
  refine ⟨le_trans hst.1 htu.1, ?_⟩
  intro k a c ha hc
  have hk : k < s.length := by
    by_contra hk
    rw [List.getElem?_eq_none (Nat.le_of_not_lt hk)] at ha
    cases ha
  have hkt : k < t.length := lt_of_lt_of_le hk hst.1
  have hb : t[k]? = some t[k] := List.getElem?_eq_getElem hkt
  obtain ⟨h1, h2⟩ := hst.2 k a _ ha hb
  obtain ⟨h3, h4⟩ := htu.2 k _ c hb hc
  exact ⟨h1.trans h3, le_trans h2 h4⟩

/-- Appending an item only grows a view. -/
theorem viewLe_ext (s : List Item) (x : Item) : viewLe s (s ++ [x]) := by
  refine ⟨by simp, ?_⟩
  intro k a b ha hb
  have hk : k < s.length := by
    by_contra hk
    rw [List.getElem?_eq_none (Nat.le_of_not_lt hk)] at ha
    cases ha
  rw [List.getElem?_append, if_pos hk, ha] at hb
  cases hb
  exact ⟨rfl, le_refl _⟩

/-- Updating the last item without renaming it and without decreasing its
progress respects `viewLe`. -/
theorem viewLe_snoc (s : List Item) (x y : Item) (hn : x.name = y.name)
    (hp : x.progress ≤ y.progress) : viewLe (s ++ [x]) (s ++ [y]) := by
  refine ⟨by simp, ?_⟩
  intro k a b ha hb
  rw [List.getElem?_append] at ha hb
  by_cases hk : k < s.length
  · rw [if_pos hk] at ha hb
    rw [ha] at hb
    cases hb
    exact ⟨rfl, le_refl _⟩
  · rw [if_neg hk] at ha hb
    cases hd : k - s.length with
    | zero =>
      rw [hd] at ha hb
      simp at ha hb
      rw [← ha, ← hb]
      exact ⟨hn, hp⟩
    | succ m =>
      rw [hd] at ha
      simp at ha

/-- Appending an item is a legal snapshot step. -/
theorem nameStep_ext (s : List Item) (x : Item) : nameStep s (s ++ [x]) := by
  refine ⟨?_, by simp⟩
  rw [List.map_append]
  exact List.prefix_append _ _

/-- Updating the last item without renaming it is a legal snapshot step. -/
theorem nameStep_snoc (s : List Item) (x y : Item) (hn : x.name = y.name) :
    nameStep (s ++ [x]) (s ++ [y]) := by
  refine ⟨?_, by simp⟩
  rw [List.map_append, List.map_append, List.map_singleton, List.map_singleton, hn]

/-- A transitive relation holding along consecutive elements holds along
all ordered pairs. -/
theorem chain'_pairwise {α : Type} {R : α → α → Prop} (tr : Transitive R) :
    ∀ {l : List α}, List.Chain' R l → List.Pairwise R l := by
  intro l
  induction l with
  | nil => intro _; exact List.Pairwise.nil
  | cons a t ih =>
    intro h
    cases t with
    | nil => simp
    | cons b t2 =>
      rw [List.chain'_cons] at h
      have hp := ih h.2
      refine List.Pairwise.cons (fun x hx => ?_) hp
      rcases List.mem_cons.mp hx with rfl | hx2
      · exact h.1
      · exact tr h.1 ((List.pairwise_cons.mp hp).1 x hx2)

/-- Monotone snapshot chain along the chunk loop: starting from an item
whose progress is dominated by the percentage of the bytes consumed so
far, consecutive emitted snapshots are `viewLe`-related and the final
item's progress is dominated by the percentage of the final byte
count. -/
theorem streamChunksAux_chain (base : List Item) (total : Nat) :
    ∀ chunks it d, it.progress ≤ chunkProgress total d →
      List.Chain' viewLe
        ((base ++ [it]) :: (streamChunksAux base total chunks it d).2.2.map ProgressPut.view) ∧
      (streamChunksAux base total chunks it d).1.progress ≤
        chunkProgress total ((streamChunksAux base total chunks it d).2.1) := by
  intro chunks
  induction chunks with
  | nil =>
    intro it d h
    exact ⟨List.chain'_singleton _, by simpa [streamChunksAux] using h⟩
  | cons c rest ih =>
    intro it d h
    by_cases hc : c.isEmpty
    · simpa [streamChunksAux, hc] using ih it d h
    · have hstep := ih {it with progress := chunkProgress total (d + c.length)} (d + c.length)
        (le_refl _)
      constructor
      · rw [show (streamChunksAux base total (c :: rest) it d).2.2 =
            ProgressPut.mk (base ++ [{it with progress := chunkProgress total (d + c.length)}]) false ::
              (streamChunksAux base total rest
                {it with progress := chunkProgress total (d + c.length)} (d + c.length)).2.2 from by
            simp [streamChunksAux, hc]]
        rw [List.map_cons]
        refine List.chain'_cons.mpr ⟨?_, hstep.1⟩
        exact viewLe_snoc base it _ rfl (le_trans h (chunkProgress_mono total (by omega)))
      · rw [show (streamChunksAux base total (c :: rest) it d).1 =
            (streamChunksAux base total rest
              {it with progress := chunkProgress total (d + c.length)} (d + c.length)).1 from by
            simp [streamChunksAux, hc]]
        rw [show (streamChunksAux base total (c :: rest) it d).2.1 =
            (streamChunksAux base total rest
              {it with progress := chunkProgress total (d + c.length)} (d + c.length)).2.1 from by
            simp [streamChunksAux, hc]]
        exact hstep.2

/-! ## Status string facts -/

/-- The in-flight status is not a terminal status. -/
theorem statusFetching_not_terminal : ¬ isTerminalStatus statusFetching := by
  rintro (h | ⟨r, h⟩)
  · exact absurd h (by decide)
  · have h1 : statusFetching.data.head? = some '下' := rfl
    have h2 : (statusFailed r).data.head? = some '失' := by
      show (("失败: " : String) ++ r).data.head? = some '失'
      rw [String.data_append]
      rfl
    rw [h] at h1
    rw [h2] at h1
    cases h1

/-- The success status is terminal. -/
theorem statusDone_terminal : isTerminalStatus statusDone := Or.inl rfl

/-- Every failure status is terminal. -/
theorem statusFailed_terminal (r : String) : isTerminalStatus (statusFailed r) :=
  Or.inr ⟨r, rfl⟩

/-- Sealing an item with a terminal status only rewrites the status and
progress fields. -/
theorem item_seal_eq (x : Item) (nm s : String) (hn : x.name = nm) :
    ({ x with status := s, progress := 100 } : Item) = ⟨nm, s, 100⟩ := by
  cases x
  simp_all

/-! ## Facts about `processUrl` -/

/-- The advertised content length of an outcome. -/
def ocTotal : FetchOutcome → Nat
  | FetchOutcome.success t _ => t
  | FetchOutcome.failure t _ _ => t

/-- The chunks an outcome streams. -/
def ocChunks : FetchOutcome → List (List Nat)
  | FetchOutcome.success _ c => c
  | FetchOutcome.failure _ c _ => c

/-- Processing one URL appends exactly its finished item to the store. -/
theorem processUrl_items (st : List Item) (url : String) (oc : FetchOutcome) :
    (processUrl st url oc).1 = st ++ [finalItem (st.map Item.name) url oc] := by
  cases oc with
  | success total chunks =>
    have hf := (streamChunksAux_fst st total chunks
      ⟨makeUnique (st.map Item.name) (extract_filename_from_url url), statusFetching, 0⟩ 0).1
    simp only [processUrl, finalItem]
    rw [item_seal_eq _ _ _ hf]
  | failure total chunks reason =>
    have hf := (streamChunksAux_fst st total chunks
      ⟨makeUnique (st.map Item.name) (extract_filename_from_url url), statusFetching, 0⟩ 0).1
    simp only [processUrl, finalItem]
    rw [item_seal_eq _ _ _ hf]

/-- Processing one URL writes exactly the zip entry of its outcome. -/
theorem processUrl_entries (st : List Item) (url : String) (oc : FetchOutcome) :
    (processUrl st url oc).2.1 =
      (entryOf ((url, oc), finalItem (st.map Item.name) url oc)).toList := by
  cases oc with
  | success total chunks => simp [processUrl, entryOf, finalItem]
  | failure total chunks reason => simp [processUrl, entryOf]

/-- At least one snapshot is emitted per URL. -/
theorem processUrl_puts_ne (st : List Item) (url : String) (oc : FetchOutcome) :
    (processUrl st url oc).2.2 ≠ [] := by
  cases oc <;> simp [processUrl]

/-- Every snapshot emitted while processing one URL is non-terminal and
shows the previous items unchanged followed by the new item under its
resolved unique name, either still fetching (with a chunk-loop
percentage) or in its final sealed state. -/
theorem processUrl_puts_mem (st : List Item) (url : String) (oc : FetchOutcome) :
    ∀ p ∈ (processUrl st url oc).2.2, p.done = false ∧
      ∃ x : Item, p.view = st ++ [x] ∧
        x.name = makeUnique (st.map Item.name) (extract_filename_from_url url) ∧
        ((x.status = statusFetching ∧ (x.progress = 0 ∨
            ∃ m, m ≤ sumBytes (ocChunks oc) ∧ x.progress = chunkProgress (ocTotal oc) m)) ∨
          x = finalItem (st.map Item.name) url oc) := by
  intro p hp
  cases oc with
  | success total chunks =>
    have hf := streamChunksAux_fst st total chunks
      ⟨makeUnique (st.map Item.name) (extract_filename_from_url url), statusFetching, 0⟩ 0
    rw [show (processUrl st url (FetchOutcome.success total chunks)).2.2 =
        ProgressPut.mk (st ++ [⟨makeUnique (st.map Item.name) (extract_filename_from_url url),
          statusFetching, 0⟩]) false ::
        (streamChunksAux st total chunks
          ⟨makeUnique (st.map Item.name) (extract_filename_from_url url), statusFetching, 0⟩ 0).2.2 ++
        [ProgressPut.mk ((processUrl st url (FetchOutcome.success total chunks)).1) false] from by
      rw [processUrl_items]
      simp [processUrl, finalItem, item_seal_eq _ _ _ hf.1]] at hp
    rcases List.mem_cons.mp hp with rfl | hp2
    · exact ⟨rfl, _, rfl, rfl, Or.inl ⟨rfl, Or.inl rfl⟩⟩
    · rcases List.mem_append.mp hp2 with hp3 | hp4
      · obtain ⟨hd, x, hv, hn, hs, m, hm, hprog⟩ :=
          streamChunksAux_puts_mem st total chunks _ 0 p hp3
        refine ⟨hd, x, hv, by simpa using hn, Or.inl ⟨by simpa using hs, Or.inr ⟨m, hm, ?_⟩⟩⟩
        simpa using hprog
      · rcases List.mem_singleton.mp hp4 with rfl
        rw [processUrl_items]
        exact ⟨rfl, _, rfl, by simp [finalItem], Or.inr rfl⟩
  | failure total chunks reason =>
    have hf := streamChunksAux_fst st total chunks
      ⟨makeUnique (st.map Item.name) (extract_filename_from_url url), statusFetching, 0⟩ 0
    rw [show (processUrl st url (FetchOutcome.failure total chunks reason)).2.2 =
        ProgressPut.mk (st ++ [⟨makeUnique (st.map Item.name) (extract_filename_from_url url),
          statusFetching, 0⟩]) false ::
        (streamChunksAux st total chunks
          ⟨makeUnique (st.map Item.name) (extract_filename_from_url url), statusFetching, 0⟩ 0).2.2 ++
        [ProgressPut.mk ((processUrl st url (FetchOutcome.failure total chunks reason)).1) false] from by
      rw [processUrl_items]
      simp [processUrl, finalItem, item_seal_eq _ _ _ hf.1]] at hp
    rcases List.mem_cons.mp hp with rfl | hp2
    · exact ⟨rfl, _, rfl, rfl, Or.inl ⟨rfl, Or.inl rfl⟩⟩
    · rcases List.mem_append.mp hp2 with hp3 | hp4
      · obtain ⟨hd, x, hv, hn, hs, m, hm, hprog⟩ :=
          streamChunksAux_puts_mem st total chunks _ 0 p hp3
        refine ⟨hd, x, hv, by simpa using hn, Or.inl ⟨by simpa using hs, Or.inr ⟨m, hm, ?_⟩⟩⟩
        simpa using hprog
      · rcases List.mem_singleton.mp hp4 with rfl
        rw [processUrl_items]
        exact ⟨rfl, _, rfl, by simp [finalItem], Or.inr rfl⟩

/-- The last snapshot of a URL's processing shows the store with the
finished item. -/
theorem processUrl_last (st : List Item) (url : String) (oc : FetchOutcome) :
    ∃ l, (processUrl st url oc).2.2.map ProgressPut.view =
      l ++ [st ++ [finalItem (st.map Item.name) url oc]] := by
  cases oc with
  | success total chunks =>
    have hf := (streamChunksAux_fst st total chunks
      ⟨makeUnique (st.map Item.name) (extract_filename_from_url url), statusFetching, 0⟩ 0).1
    refine ⟨(st ++ [⟨makeUnique (st.map Item.name) (extract_filename_from_url url),
      statusFetching, 0⟩]) :: (streamChunksAux st total chunks
        ⟨makeUnique (st.map Item.name) (extract_filename_from_url url),
          statusFetching, 0⟩ 0).2.2.map ProgressPut.view, ?_⟩
    simp only [processUrl, finalItem, List.map_cons, List.map_append, List.map_singleton]
    rw [item_seal_eq _ _ _ hf]
    simp
  | failure total chunks reason =>
    have hf := (streamChunksAux_fst st total chunks
      ⟨makeUnique (st.map Item.name) (extract_filename_from_url url), statusFetching, 0⟩ 0).1
    refine ⟨(st ++ [⟨makeUnique (st.map Item.name) (extract_filename_from_url url),
      statusFetching, 0⟩]) :: (streamChunksAux st total chunks
        ⟨makeUnique (st.map Item.name) (extract_filename_from_url url),
          statusFetching, 0⟩ 0).2.2.map ProgressPut.view, ?_⟩
    simp only [processUrl, finalItem, List.map_cons, List.map_append, List.map_singleton]
    rw [item_seal_eq _ _ _ hf]
    simp

/-- The snapshots of one URL's processing, read from the previous store,
form a `nameStep` chain. -/
theorem processUrl_chain_names (st : List Item) (url : String) (oc : FetchOutcome) :
    List.Chain' nameStep (st :: (processUrl st url oc).2.2.map ProgressPut.view) := by
  have hmem := processUrl_puts_mem st url oc
  rw [List.chain'_cons']
  constructor
  · intro h hh
    have hm : h ∈ (processUrl st url oc).2.2.map ProgressPut.view := List.mem_of_mem_head? hh
    obtain ⟨p, hp, hpv⟩ := List.mem_map.mp hm
    obtain ⟨_, x, hv, _, _⟩ := hmem p hp
    rw [← hpv, hv]
    exact nameStep_ext st x
  · apply List.Pairwise.chain'
    apply List.pairwise_of_forall_mem_list
    intro a ha b hb
    obtain ⟨pa, hpa, hpav⟩ := List.mem_map.mp ha
    obtain ⟨pb, hpb, hpbv⟩ := List.mem_map.mp hb
    obtain ⟨_, xa, hva, hna, _⟩ := hmem pa hpa
    obtain ⟨_, xb, hvb, hnb, _⟩ := hmem pb hpb
    rw [← hpav, ← hpbv, hva, hvb]
    exact nameStep_snoc st xa xb (hna.trans hnb.symm)

/-- Monotone chain for the "stream then seal" shape shared by both
outcome branches of `processUrl`: starting from the previous store, the
initial snapshot at progress 0, the per-chunk snapshots and the final
sealed snapshot are consecutively `viewLe`-related — provided the
delivered bytes do not exceed the advertised length. -/
theorem chain_seal (st : List Item) (total : Nat) (chunks : List (List Nat)) (item0 sealed : Item)
    (h0 : item0.progress = 0)
    (hname : sealed.name = (streamChunksAux st total chunks item0 0).1.name)
    (hseal : sealed.progress = 100)
    (hok : total = 0 ∨ sumBytes chunks ≤ total) :
    List.Chain' viewLe (st :: List.map ProgressPut.view
      ((ProgressPut.mk (st ++ [item0]) false :: (streamChunksAux st total chunks item0 0).2.2) ++
        [ProgressPut.mk (st ++ [sealed]) false])) := by
  have hf := (streamChunksAux_fst st total chunks item0 0).1
  have hch := streamChunksAux_chain st total chunks item0 0 (by rw [h0]; exact Nat.zero_le _)
  have hfin : (streamChunksAux st total chunks item0 0).1.progress ≤ 100 := by
    refine le_trans hch.2 ?_
    rw [streamChunksAux_bytes]
    exact chunkProgress_le_100 (by simpa using hok)
  rw [List.map_append, List.map_cons, List.map_singleton]
  rw [show (st :: (((st ++ [item0]) ::
      List.map ProgressPut.view (streamChunksAux st total chunks item0 0).2.2) ++
        [st ++ [sealed]])) =
      ((st :: (st ++ [item0]) ::
        List.map ProgressPut.view (streamChunksAux st total chunks item0 0).2.2) ++
        [st ++ [sealed]]) from by simp]
  rw [List.chain'_append]
  refine ⟨List.chain'_cons.mpr ⟨viewLe_ext st item0, hch.1⟩, List.chain'_singleton _, ?_⟩
  intro x hx y hy
  simp only [List.head?_cons, Option.mem_some_iff] at hy
  subst hy
  rw [List.getLast?_cons_cons] at hx
  rcases streamChunksAux_last st total chunks item0 0 with ⟨hnil, heq⟩ | ⟨l, hl⟩
  · rw [hnil] at hx
    simp only [List.map_nil, List.getLast?_singleton, Option.mem_some_iff] at hx
    subst hx
    refine viewLe_snoc st item0 sealed ?_ ?_
    · rw [hname, heq]
    · rw [h0, hseal]; omega
  · rw [hl] at hx
    rw [show ((st ++ [item0]) :: (l ++ [st ++ [(streamChunksAux st total chunks item0 0).1]])) =
        (((st ++ [item0]) :: l) ++ [st ++ [(streamChunksAux st total chunks item0 0).1]]) from by
        simp] at hx
    rw [List.getLast?_concat, Option.mem_some_iff] at hx
    subst hx
    refine viewLe_snoc st _ sealed hname.symm ?_
    rw [hseal]
    exact hfin

/-- Monotone chain for one URL's processing, starting from the previous
store, provided the delivered bytes do not exceed the advertised
length. -/
theorem processUrl_chain_viewLe (st : List Item) (url : String) (oc : FetchOutcome)
    (hok : okOutcome oc) :
    List.Chain' viewLe (st :: (processUrl st url oc).2.2.map ProgressPut.view) := by
  cases oc with
  | success total chunks =>
    have hf := (streamChunksAux_fst st total chunks
      ⟨makeUnique (st.map Item.name) (extract_filename_from_url url), statusFetching, 0⟩ 0).1
    have h := chain_seal st total chunks
      ⟨makeUnique (st.map Item.name) (extract_filename_from_url url), statusFetching, 0⟩
      ({(streamChunksAux st total chunks
        ⟨makeUnique (st.map Item.name) (extract_filename_from_url url), statusFetching, 0⟩ 0).1 with
        status := statusDone, progress := 100}) rfl rfl rfl hok
    simpa [processUrl] using h
  | failure total chunks reason =>
    have hf := (streamChunksAux_fst st total chunks
      ⟨makeUnique (st.map Item.name) (extract_filename_from_url url), statusFetching, 0⟩ 0).1
    have h := chain_seal st total chunks
      ⟨makeUnique (st.map Item.name) (extract_filename_from_url url), statusFetching, 0⟩
      ({(streamChunksAux st total chunks
        ⟨makeUnique (st.map Item.name) (extract_filename_from_url url), statusFetching, 0⟩ 0).1 with
        status := statusFailed reason, progress := 100}) rfl rfl rfl hok
    simpa [processUrl] using h

/-! ## Facts about the whole run -/

/-- Name of a finished item. -/
theorem finalItem_name (used : List String) (url : String) (oc : FetchOutcome) :
    (finalItem used url oc).name = makeUnique used (extract_filename_from_url url) := by
  cases oc <;> rfl

/-- Status string of an outcome's finished item. -/
def ocStatus : FetchOutcome → String
  | FetchOutcome.success _ _ => statusDone
  | FetchOutcome.failure _ _ r => statusFailed r

/-- Unfolding of `runAux` on a nonempty URL list. -/
theorem runAux_cons (u : String) (oc : FetchOutcome) (rest : List (String × FetchOutcome))
    (st : List Item) :
    runAux ((u, oc) :: rest) st =
      ((runAux rest (processUrl st u oc).1).1,
        (processUrl st u oc).2.1 ++ (runAux rest (processUrl st u oc).1).2.1,
        (processUrl st u oc).2.2 ++ (runAux rest (processUrl st u oc).1).2.2) := rfl

/-- The final store is the initial store followed by one finished item
per URL, named left to right against the names already used. -/
theorem runAux_items : ∀ (inputs : List (String × FetchOutcome)) (st : List Item),
    (runAux inputs st).1 = st ++ newItemsList inputs (st.map Item.name) := by
  intro inputs
  induction inputs with
  | nil => intro st; simp [runAux, newItemsList]
  | cons x rest ih =>
    intro st
    obtain ⟨u, oc⟩ := x
    rw [runAux_cons]
    show (runAux rest (processUrl st u oc).1).1 = _
    rw [ih, processUrl_items]
    simp [newItemsList, List.map_append, finalItem_name]

/-- The names of the appended items are the expected de-duplicated
names. -/
theorem newItemsList_names : ∀ (inputs : List (String × FetchOutcome)) (used : List String),
    (newItemsList inputs used).map Item.name = expectedNamesAux used (inputs.map Prod.fst) := by
  intro inputs
  induction inputs with
  | nil => intro used; simp [newItemsList, expectedNamesAux]
  | cons x rest ih =>
    intro used
    obtain ⟨u, oc⟩ := x
    simp only [newItemsList, List.map_cons, expectedNamesAux, finalItem_name, ih]

/-- Every appended item carries a terminal status and progress 100. -/
theorem newItemsList_wf : ∀ (inputs : List (String × FetchOutcome)) (used : List String),
    ∀ it ∈ newItemsList inputs used, isTerminalStatus it.status ∧ it.progress = 100 := by
  intro inputs
  induction inputs with
  | nil => intro used it hit; simp [newItemsList] at hit
  | cons x rest ih =>
    intro used it hit
    obtain ⟨u, oc⟩ := x
    rcases List.mem_cons.mp hit with rfl | h2
    · cases oc with
      | success t c => exact ⟨statusDone_terminal, rfl⟩
      | failure t c r => exact ⟨statusFailed_terminal r, rfl⟩
    · exact ih _ it h2

/-- The item at position `i` reflects the outcome of URL `i`. -/
theorem newItemsList_status : ∀ (inputs : List (String × FetchOutcome)) (used : List String)
    (i : Nat) (u : String) (oc : FetchOutcome), inputs[i]? = some (u, oc) →
    ∃ it, (newItemsList inputs used)[i]? = some it ∧
      it.status = ocStatus oc ∧ it.progress = 100 := by
  intro inputs
  induction inputs with
  | nil => intro used i u oc h; simp at h
  | cons x rest ih =>
    intro used i u oc h
    obtain ⟨u', oc'⟩ := x
    cases i with
    | zero =>
      simp only [List.getElem?_cons_zero, Option.some.injEq] at h
      cases h
      refine ⟨finalItem used u oc, by simp [newItemsList], ?_, ?_⟩
      · cases oc <;> rfl
      · cases oc <;> rfl
    | succ i =>
      simp only [List.getElem?_cons_succ] at h
      obtain ⟨it, hh1, hh2, hh3⟩ := ih _ i u oc h
      exact ⟨it, by simpa [newItemsList] using hh1, hh2, hh3⟩

/-- De-duplication keeps the name list duplicate free. -/
theorem expectedNamesAux_nodup : ∀ (urls : List String) (used : List String),
    used.Nodup → (used ++ expectedNamesAux used urls).Nodup := by
  intro urls
  induction urls with
  | nil => intro used h; simpa [expectedNamesAux] using h
  | cons u rest ih =>
    intro used h
    have h2 : (used ++ [makeUnique used (extract_filename_from_url u)]).Nodup := by
      rw [List.nodup_append]
      refine ⟨h, List.nodup_singleton _, ?_⟩
      intro x hx hx2
      rw [List.mem_singleton.mp hx2] at hx
      exact makeUnique_not_mem used _ hx
    have h3 := ih _ h2
    rw [expectedNamesAux]
    rw [show used ++ (makeUnique used (extract_filename_from_url u) ::
        expectedNamesAux (used ++ [makeUnique used (extract_filename_from_url u)])
          (rest : List String)) =
      (used ++ [makeUnique used (extract_filename_from_url u)]) ++
        expectedNamesAux (used ++ [makeUnique used (extract_filename_from_url u)]) rest from by
      simp]
    exact h3

/-- The archive entries are exactly the successful URLs' payloads under
their items' names. -/
theorem runAux_entries : ∀ (inputs : List (String × FetchOutcome)) (st : List Item),
    (runAux inputs st).2.1 =
      (inputs.zip (newItemsList inputs (st.map Item.name))).filterMap entryOf := by
  intro inputs
  induction inputs with
  | nil => intro st; simp [runAux, newItemsList]
  | cons x rest ih =>
    intro st
    obtain ⟨u, oc⟩ := x
    rw [runAux_cons]
    show (processUrl st u oc).2.1 ++ (runAux rest (processUrl st u oc).1).2.1 = _
    rw [processUrl_entries, ih, processUrl_items]
    rw [show ((st ++ [finalItem (st.map Item.name) u oc]).map Item.name) =
        (st.map Item.name ++ [(finalItem (st.map Item.name) u oc).name]) from by simp]
    rw [show newItemsList ((u, oc) :: rest) (st.map Item.name) =
        finalItem (st.map Item.name) u oc ::
          newItemsList rest
            (st.map Item.name ++ [(finalItem (st.map Item.name) u oc).name]) from rfl]
    rw [List.zip_cons_cons, List.filterMap_cons]
    cases oc with
    | success t c => simp [entryOf]
    | failure t c r => simp [entryOf]

/-- No snapshot emitted inside the loop is terminal. -/
theorem runAux_puts_done : ∀ (inputs : List (String × FetchOutcome)) (st : List Item),
    ∀ p ∈ (runAux inputs st).2.2, p.done = false := by
  intro inputs
  induction inputs with
  | nil => intro st p hp; simp [runAux] at hp
  | cons x rest ih =>
    intro st p hp
    obtain ⟨u, oc⟩ := x
    rw [runAux_cons] at hp
    rcases List.mem_append.mp hp with h1 | h2
    · exact (processUrl_puts_mem st u oc p h1).1
    · exact ih _ p h2

/-- Chains of snapshot views compose across the URL loop: if each URL's
snapshots chain under `R` from the store they start at, the entire run's
snapshots chain under `R` from the initial store, and the last snapshot
(when any exists) shows the final store. -/
theorem runAux_chain (R : List Item → List Item → Prop) :
    ∀ (inputs : List (String × FetchOutcome)) (st : List Item),
    (∀ (st' : List Item) (url : String) (oc : FetchOutcome), (url, oc) ∈ inputs →
      List.Chain' R (st' :: (processUrl st' url oc).2.2.map ProgressPut.view)) →
    List.Chain' R (st :: (runAux inputs st).2.2.map ProgressPut.view) ∧
    ((runAux inputs st).2.2 = [] ∧ (runAux inputs st).1 = st ∨
      ∃ l, (runAux inputs st).2.2.map ProgressPut.view = l ++ [(runAux inputs st).1]) := by
  intro inputs
  induction inputs with
  | nil =>
    intro st _
    exact ⟨List.chain'_singleton _, Or.inl ⟨rfl, rfl⟩⟩
  | cons x rest ih =>
    intro st hproc
    obtain ⟨u, oc⟩ := x
    have hp := hproc st u oc (List.mem_cons_self _ _)
    obtain ⟨hrest, hlast⟩ := ih (processUrl st u oc).1
      (fun st' url oc' h => hproc st' url oc' (List.mem_cons_of_mem _ h))
    obtain ⟨l1, hl1⟩ := processUrl_last st u oc
    have hl1' : (processUrl st u oc).2.2.map ProgressPut.view =
        l1 ++ [(processUrl st u oc).1] := by
      rw [hl1, processUrl_items]
    rw [runAux_cons]
    constructor
    · show List.Chain' R (st ::
        ((processUrl st u oc).2.2 ++ (runAux rest (processUrl st u oc).1).2.2).map
          ProgressPut.view)
      rw [List.map_append]
      rw [show (st :: ((processUrl st u oc).2.2.map ProgressPut.view ++
          (runAux rest (processUrl st u oc).1).2.2.map ProgressPut.view)) =
        ((st :: (processUrl st u oc).2.2.map ProgressPut.view) ++
          (runAux rest (processUrl st u oc).1).2.2.map ProgressPut.view) from by simp]
      rw [List.chain'_append]
      refine ⟨hp, hrest.tail, ?_⟩
      intro a ha b hb
      rw [show (st :: (processUrl st u oc).2.2.map ProgressPut.view) =
          ((st :: l1) ++ [(processUrl st u oc).1]) from by rw [hl1']; simp] at ha
      rw [List.getLast?_concat, Option.mem_some_iff] at ha
      subst ha
      exact (List.chain'_cons'.mp hrest).1 b hb
    · show ((processUrl st u oc).2.2 ++ (runAux rest (processUrl st u oc).1).2.2 = [] ∧
          (runAux rest (processUrl st u oc).1).1 = st) ∨
        ∃ l, ((processUrl st u oc).2.2 ++
            (runAux rest (processUrl st u oc).1).2.2).map ProgressPut.view =
          l ++ [(runAux rest (processUrl st u oc).1).1]
      rcases hlast with ⟨hnil, heq⟩ | ⟨l2, hl2⟩
      · refine Or.inr ⟨l1, ?_⟩
        rw [List.map_append, hnil, hl1', heq]
        simp
      · refine Or.inr ⟨(processUrl st u oc).2.2.map ProgressPut.view ++ l2, ?_⟩
        rw [List.map_append, hl2]
        simp

/-- Item soundness: progress within 100 and pinned at 100 on a terminal
status. -/
def itemOk (it : Item) : Prop :=
  it.progress ≤ 100 ∧ (isTerminalStatus it.status → it.progress = 100)

/-- All items of all snapshots of one URL's processing are sound when the
previous store is sound and the outcome honours its content length. -/
theorem processUrl_views_ok (st : List Item) (url : String) (oc : FetchOutcome)
    (hok : okOutcome oc) (hst : ∀ it ∈ st, itemOk it) :
    (∀ p ∈ (processUrl st url oc).2.2, ∀ it ∈ p.view, itemOk it) ∧
    (∀ it ∈ (processUrl st url oc).1, itemOk it) := by
  have hbound : ocTotal oc = 0 ∨ sumBytes (ocChunks oc) ≤ ocTotal oc := by
    cases oc <;> exact hok
  constructor
  · intro p hp it hit
    obtain ⟨-, x, hv, -, hx⟩ := processUrl_puts_mem st url oc p hp
    rw [hv] at hit
    rcases List.mem_append.mp hit with h1 | h2
    · exact hst it h1
    · rw [List.mem_singleton.mp h2]
      rcases hx with ⟨hs, hprog⟩ | rfl
      · constructor
        · rcases hprog with h0 | ⟨m, hm, hcp⟩
          · omega
          · rw [hcp]
            refine chunkProgress_le_100 ?_
            rcases hbound with hb | hb
            · exact Or.inl hb
            · exact Or.inr (le_trans hm hb)
        · intro hterm
          rw [hs] at hterm
          exact absurd hterm statusFetching_not_terminal
      · cases oc with
        | success t c => exact ⟨le_refl _, fun _ => rfl⟩
        | failure t c r => exact ⟨le_refl _, fun _ => rfl⟩
  · intro it hit
    rw [processUrl_items] at hit
    rcases List.mem_append.mp hit with h1 | h2
    · exact hst it h1
    · rw [List.mem_singleton.mp h2]
      cases oc with
      | success t c => exact ⟨le_refl _, fun _ => rfl⟩
      | failure t c r => exact ⟨le_refl _, fun _ => rfl⟩

/-- All items of all snapshots of a run are sound when every outcome
honours its content length. -/
theorem runAux_views_ok : ∀ (inputs : List (String × FetchOutcome)) (st : List Item),
    (∀ x ∈ inputs, okOutcome x.2) → (∀ it ∈ st, itemOk it) →
    (∀ p ∈ (runAux inputs st).2.2, ∀ it ∈ p.view, itemOk it) ∧
    (∀ it ∈ (runAux inputs st).1, itemOk it) := by
  intro inputs
  induction inputs with
  | nil =>
    intro st _ hst
    exact ⟨fun p hp => by simp [runAux] at hp, fun it hit => hst it hit⟩
  | cons x rest ih =>
    intro st hok hst
    obtain ⟨u, oc⟩ := x
    have h1 := processUrl_views_ok st u oc (hok (u, oc) (List.mem_cons_self _ _)) hst
    have h2 := ih (processUrl st u oc).1
      (fun y hy => hok y (List.mem_cons_of_mem _ hy)) h1.2
    rw [runAux_cons]
    refine ⟨?_, h2.2⟩
    intro p hp
    rcases List.mem_append.mp hp with hp1 | hp2
    · exact h1.1 p hp1
    · exact h2.1 p hp2

/-! ## Worker-level facts -/

/-- One appended item per URL. -/
theorem newItemsList_length : ∀ (inputs : List (String × FetchOutcome)) (used : List String),
    (newItemsList inputs used).length = inputs.length := by
  intro inputs
  induction inputs with
  | nil => intro used; rfl
  | cons x rest ih =>
    intro used
    obtain ⟨u, oc⟩ := x
    simp [newItemsList, ih]

/-- The final item store of a worker run. -/
theorem download_worker_items (inputs : List (String × FetchOutcome)) :
    (download_worker inputs).items = newItemsList inputs [] := by
  show (runAux inputs []).1 = _
  rw [runAux_items]
  simp

/-- The queue contents of a worker run: the loop snapshots followed by
the terminal one. -/
theorem download_worker_puts (inputs : List (String × FetchOutcome)) :
    (download_worker inputs).puts =
      (runAux inputs []).2.2 ++ [ProgressPut.mk (download_worker inputs).items true] := rfl

/-- The archive entries of a worker run. -/
theorem download_worker_entries (inputs : List (String × FetchOutcome)) :
    (download_worker inputs).zipEntries =
      (inputs.zip (download_worker inputs).items).filterMap entryOf := by
  show (runAux inputs []).2.1 = _
  rw [runAux_entries, download_worker_items]
  rfl

/-- Snapshot chains extend over the full queue, terminal snapshot
included, for any reflexive per-URL chain relation. -/
theorem download_worker_chain (R : List Item → List Item → Prop)
    (inputs : List (String × FetchOutcome)) (hrefl : ∀ s, R s s)
    (hproc : ∀ (st' : List Item) (url : String) (oc : FetchOutcome), (url, oc) ∈ inputs →
      List.Chain' R (st' :: (processUrl st' url oc).2.2.map ProgressPut.view)) :
    List.Chain' R (([] : List Item) :: (download_worker inputs).puts.map ProgressPut.view) := by
  obtain ⟨hchain, hlast⟩ := runAux_chain R inputs [] hproc
  rw [download_worker_puts, List.map_append, List.map_singleton]
  rw [show (([] : List Item) :: ((runAux inputs []).2.2.map ProgressPut.view ++
      [(download_worker inputs).items])) =
    ((([] : List Item) :: (runAux inputs []).2.2.map ProgressPut.view) ++
      [(download_worker inputs).items]) from by simp]
  rw [List.chain'_append]
  refine ⟨hchain, List.chain'_singleton _, ?_⟩
  intro x hx y hy
  simp only [List.head?_cons, Option.mem_some_iff] at hy
  subst hy
  rcases hlast with ⟨hnil, heq⟩ | ⟨l, hl⟩
  · rw [hnil] at hx
    simp only [List.map_nil, List.getLast?_singleton, Option.mem_some_iff] at hx
    subst hx
    have : (download_worker inputs).items = ([] : List Item) := by
      show (runAux inputs []).1 = ([] : List Item)
      exact heq
    rw [this]
    exact hrefl []
  · rw [show (([] : List Item) :: (runAux inputs []).2.2.map ProgressPut.view) =
        ((([] : List Item) :: l) ++ [(runAux inputs []).1]) from by rw [hl]; simp] at hx
    rw [List.getLast?_concat, Option.mem_some_iff] at hx
    subst hx
    exact hrefl _

/-- The terminal snapshot is the last queue element and shows the final
store. -/
theorem download_worker_last (inputs : List (String × FetchOutcome)) :
    (download_worker inputs).puts.getLast? =
      some (ProgressPut.mk (download_worker inputs).items true) := by
  rw [download_worker_puts, List.getLast?_concat]

/-- Every snapshot before the terminal one is non-terminal. -/
theorem download_worker_dropLast (inputs : List (String × FetchOutcome)) :
    ∀ p ∈ (download_worker inputs).puts.dropLast, p.done = false := by
  intro p hp
  rw [download_worker_puts, List.dropLast_concat] at hp
  exact runAux_puts_done inputs [] p hp

/-- Every loop snapshot's name list is a prefix of the final store's name
list. -/
theorem runAux_viewNames : ∀ (inputs : List (String × FetchOutcome)) (st : List Item),
    ∀ p ∈ (runAux inputs st).2.2,
      p.view.map Item.name <+: (runAux inputs st).1.map Item.name := by
  intro inputs
  induction inputs with
  | nil => intro st p hp; simp [runAux] at hp
  | cons x rest ih =>
    intro st p hp
    obtain ⟨u, oc⟩ := x
    rw [runAux_cons] at hp ⊢
    rcases List.mem_append.mp hp with h1 | h2
    · obtain ⟨-, y, hv, hn, -⟩ := processUrl_puts_mem st u oc p h1
      have hview : p.view.map Item.name = (processUrl st u oc).1.map Item.name := by
        rw [hv, processUrl_items]
        simp [finalItem_name, hn]
      rw [hview]
      show (processUrl st u oc).1.map Item.name <+: (runAux rest (processUrl st u oc).1).1.map Item.name
      rw [runAux_items]
      simp only [List.map_append]
      exact List.prefix_append _ _
    · exact ih _ p h2

/-! ## Claim theorems -/

/-- C1: within a task, each URL's resolved file name is de-duplicated
against the names already used by appending the smallest incrementing
numeric suffix `_1`, `_2`, ... before the extension, so the full run's
item names are pairwise distinct and assigned in submission order. -/
theorem c1_unique_names (inputs : List (String × FetchOutcome)) :
    (((download_worker inputs).items.map Item.name).Nodup ∧
      (download_worker inputs).items.map Item.name =
        expectedNamesAux [] (inputs.map Prod.fst)) ∧
    ∀ (used : List String) (f : String),
      (f ∉ used → makeUnique used f = f) ∧
      (f ∈ used → ∃ k, 1 ≤ k ∧
        makeUnique used f = mkCand (splitext f).1 (splitext f).2 k ∧
        mkCand (splitext f).1 (splitext f).2 k ∉ used ∧
        ∀ j, 1 ≤ j → j < k → mkCand (splitext f).1 (splitext f).2 j ∈ used) := by
  refine ⟨⟨?_, ?_⟩, fun used f => makeUnique_spec used f⟩
  · rw [download_worker_items, newItemsList_names]
    have h := expectedNamesAux_nodup (inputs.map Prod.fst) [] (List.nodup_nil)
    simpa using h
  · rw [download_worker_items, newItemsList_names]

/-- Witness for C1 at a concrete collision: a second `img.jpg` becomes
`img_1.jpg`. -/
theorem c1_unique_names_witness :
    (("img.jpg" : String) ∈ (["img.jpg"] : List String)) ∧
    ∃ k, 1 ≤ k ∧
      makeUnique ["img.jpg"] ("img.jpg") =
        mkCand (splitext ("img.jpg")).1 (splitext ("img.jpg")).2 k ∧
      mkCand (splitext ("img.jpg")).1 (splitext ("img.jpg")).2 k ∉ (["img.jpg"] : List String) ∧
      ∀ j, 1 ≤ j → j < k →
        mkCand (splitext ("img.jpg")).1 (splitext ("img.jpg")).2 j ∈ (["img.jpg"] : List String) :=
  ⟨by decide, ((c1_unique_names []).2 ["img.jpg"] ("img.jpg")).2 (by decide)⟩

/-- C2: a failed URL only marks its own item as failed with the reason
and progress 100; every URL still yields an item, all items end terminal,
the terminal `done=true` snapshot is still emitted last, and the archive
is still produced (with no entries when every URL failed). -/
theorem c2_failure_isolation (inputs : List (String × FetchOutcome)) :
    (download_worker inputs).items.length = inputs.length ∧
    (download_worker inputs).puts.getLast? =
      some (ProgressPut.mk (download_worker inputs).items true) ∧
    (∀ it ∈ (download_worker inputs).items, isTerminalStatus it.status ∧ it.progress = 100) ∧
    (∀ (i : Nat) (u : String) (t : Nat) (cs : List (List Nat)) (r : String),
      inputs[i]? = some (u, FetchOutcome.failure t cs r) →
      ∃ it, (download_worker inputs).items[i]? = some it ∧
        it.status = statusFailed r ∧ it.progress = 100) ∧
    ((∀ x ∈ inputs, ∀ (t : Nat) (cs : List (List Nat)), x.2 ≠ FetchOutcome.success t cs) →
      (download_worker inputs).zipEntries = []) := by
  refine ⟨?_, download_worker_last inputs, ?_, ?_, ?_⟩
  · rw [download_worker_items, newItemsList_length]
  · rw [download_worker_items]
    exact newItemsList_wf inputs []
  · intro i u t cs r h
    rw [download_worker_items]
    obtain ⟨it, h1, h2, h3⟩ := newItemsList_status inputs [] i u (FetchOutcome.failure t cs r) h
    exact ⟨it, h1, h2, h3⟩
  · intro hfail
    rw [download_worker_entries]
    rw [List.filterMap_eq_nil_iff]
    intro a ha
    obtain ⟨hmem, -⟩ := List.of_mem_zip ha
    cases hoc : a.1.2 with
    | success t cs =>
      exact absurd hoc (hfail a.1 hmem t cs)
    | failure t cs r =>
      simp [entryOf, hoc]

/-- Witness for C2 on a task whose single URL fails. -/
theorem c2_failure_isolation_witness :
    (download_worker [(("u" : String), FetchOutcome.failure 0 [] ("boom"))]).items.length = 1 ∧
    (∃ it, (download_worker [(("u" : String), FetchOutcome.failure 0 [] ("boom"))]).items[0]? =
      some it ∧ it.status = statusFailed ("boom") ∧ it.progress = 100) ∧
    (download_worker [(("u" : String), FetchOutcome.failure 0 [] ("boom"))]).zipEntries = [] := by
  have h := c2_failure_isolation [(("u" : String), FetchOutcome.failure 0 [] ("boom"))]
  refine ⟨h.1, h.2.2.2.1 0 ("u") 0 [] ("boom") rfl, h.2.2.2.2 ?_⟩
  intro x hx t cs hcontra
  rw [List.mem_singleton.mp hx] at hcontra
  cases hcontra

/-- The consumer loop drains a buffer of non-terminal snapshots followed
by a terminal one completely and in order. -/
theorem deliverStream_concat : ∀ (l : List ProgressPut) (q : ProgressPut), q.done = true →
    (∀ p ∈ l, p.done = false) → deliverStream (l ++ [q]) = l ++ [q] := by
  intro l
  induction l with
  | nil =>
    intro q hq _
    simp [deliverStream, hq]
  | cons p ps ih =>
    intro q hq h
    have hp : p.done = false := h p (List.mem_cons_self _ _)
    have hih := ih q hq (fun x hx => h x (List.mem_cons_of_mem _ hx))
    simp only [List.cons_append, deliverStream, hp, List.append_eq]
    simp [hih]

/-- C3: the SSE stream delivers the queue in FIFO order in full, the
terminal `done=true` snapshot is the last element delivered, and no
snapshot after it is ever emitted (it is the last one enqueued). -/
theorem c3_fifo_terminal (inputs : List (String × FetchOutcome)) :
    deliverStream (download_worker inputs).puts = (download_worker inputs).puts ∧
    (download_worker inputs).puts.getLast? =
      some (ProgressPut.mk (download_worker inputs).items true) ∧
    ∀ p ∈ (download_worker inputs).puts.dropLast, p.done = false := by
  refine ⟨?_, download_worker_last inputs, download_worker_dropLast inputs⟩
  rw [download_worker_puts]
  exact deliverStream_concat _ _ rfl (runAux_puts_done inputs [])

/-- Skipping the falsy chunks does not change the assembled payload. -/
theorem nonemptyChunks_flatten (cs : List (List Nat)) :
    (nonemptyChunks cs).flatten = cs.flatten := by
  induction cs with
  | nil => rfl
  | cons c rest ih =>
    by_cases hc : c.isEmpty
    · have hce : c = [] := by
        cases c
        · rfl
        · simp at hc
      subst hce
      simpa [nonemptyChunks] using ih
    · have hsplit : nonemptyChunks (c :: rest) = c :: nonemptyChunks rest := by
        simp [nonemptyChunks, hc]
      rw [hsplit, List.flatten_cons, List.flatten_cons, ih]

/-- C4: the archive holds exactly one entry per successfully fetched URL,
under that URL's item name and with the fully assembled payload bytes;
failed URLs contribute nothing. -/
theorem c4_archive_entries (inputs : List (String × FetchOutcome)) :
    (download_worker inputs).zipEntries =
      (inputs.zip (download_worker inputs).items).filterMap entryOf ∧
    (∀ (u : String) (t : Nat) (cs : List (List Nat)) (it : Item),
      entryOf ((u, FetchOutcome.success t cs), it) = some (it.name, cs.flatten)) ∧
    (∀ (u : String) (t : Nat) (cs : List (List Nat)) (r : String) (it : Item),
      entryOf ((u, FetchOutcome.failure t cs r), it) = none) := by
  refine ⟨download_worker_entries inputs, ?_, fun u t cs r it => rfl⟩
  intro u t cs it
  simp [entryOf, nonemptyChunks_flatten]

/-- C5 counterexample: a server advertising `content-length: 1` but
delivering two bytes drives the unclamped percentage to 200, above 100
(and the subsequent sealing to 100 decreases it). -/
theorem c5_progress_counterexample :
    ∃ p ∈ (download_worker [(("u" : String), FetchOutcome.success 1 [[7, 7]])]).puts,
      ∃ it ∈ p.view, 100 < it.progress := by
  decide

/-- C5 (amended): provided every outcome delivers at most its advertised
content length (or has none), every snapshot keeps all progress values in
[0,100], the per-position progress values are non-decreasing across the
snapshot sequence, and a terminal status pins progress to exactly 100. -/
theorem c5_progress_amended (inputs : List (String × FetchOutcome))
    (hok : ∀ x ∈ inputs, okOutcome x.2) :
    (∀ p ∈ (download_worker inputs).puts, ∀ it ∈ p.view, it.progress ≤ 100) ∧
    List.Pairwise viewLe ((download_worker inputs).puts.map ProgressPut.view) ∧
    (∀ p ∈ (download_worker inputs).puts, ∀ it ∈ p.view,
      isTerminalStatus it.status → it.progress = 100) := by
  have hworkerok : ∀ p ∈ (download_worker inputs).puts, ∀ it ∈ p.view, itemOk it := by
    intro p hp it hit
    obtain ⟨hviews, hstore⟩ := runAux_views_ok inputs [] hok (by intro it hit; simp at hit)
    rw [download_worker_puts] at hp
    rcases List.mem_append.mp hp with h1 | h2
    · exact hviews p h1 it hit
    · rw [List.mem_singleton.mp h2] at hit
      exact hstore it hit
  refine ⟨fun p hp it hit => (hworkerok p hp it hit).1, ?_,
    fun p hp it hit => (hworkerok p hp it hit).2⟩
  have hchain := download_worker_chain viewLe inputs viewLe_refl
    (fun st' url oc h => processUrl_chain_viewLe st' url oc (hok (url, oc) h))
  have hpw := chain'_pairwise viewLe_trans hchain
  exact (List.pairwise_cons.mp hpw).2

/-- Witness for the amended C5 on a well-behaved two-chunk download: the
mid-stream snapshot of a 2-byte body reports 50 percent, within range. -/
theorem c5_progress_amended_witness :
    (Item.mk ("u.jpg") statusFetching 50).progress ≤ 100 :=
  (c5_progress_amended [(("u" : String), FetchOutcome.success 2 [[5], [6]])]
      (by
        intro x hx
        rw [List.mem_singleton.mp hx]
        exact Or.inr (by decide))).1
    (ProgressPut.mk [Item.mk ("u.jpg") statusFetching 50] false) (by decide)
    (Item.mk ("u.jpg") statusFetching 50) (by decide)

/-- C6 counterexample: the queue stores `items.copy()` — a shallow copy —
so a reader that serialises a buffered snapshot after the worker finished
sees the items' final field values, not the values at emission time: the
first snapshot was emitted with progress 0 but is read back with the item
completed at progress 100. -/
theorem c6_snapshot_counterexample :
    ∃ p ∈ (download_worker [(("u" : String), FetchOutcome.success 1 [[7]])]).puts,
      lateView (download_worker [(("u" : String), FetchOutcome.success 1 [[7]])]).items p ≠
        p.view := by
  decide

/-- C6 (amended): a snapshot does fix the item count, order and names —
those are copied and never mutated afterwards — but the status and
progress fields are shared with the worker's live items, so a late read
only preserves names and length of the emitted view. -/
theorem c6_snapshot_amended (inputs : List (String × FetchOutcome)) :
    ∀ p ∈ (download_worker inputs).puts,
      (lateView (download_worker inputs).items p).map Item.name = p.view.map Item.name ∧
      (lateView (download_worker inputs).items p).length = p.view.length := by
  intro p hp
  have hpre : p.view.map Item.name <+: (download_worker inputs).items.map Item.name := by
    rw [download_worker_puts] at hp
    rcases List.mem_append.mp hp with h1 | h2
    · exact runAux_viewNames inputs [] p h1
    · rw [List.mem_singleton.mp h2]
  obtain ⟨t, ht⟩ := hpre
  have hlen : p.view.length ≤ (download_worker inputs).items.length := by
    have h := congrArg List.length ht
    simp only [List.length_append, List.length_map] at h
    omega
  constructor
  · show ((download_worker inputs).items.take p.view.length).map Item.name = _
    rw [List.map_take, ← ht]
    rw [show p.view.length = (p.view.map Item.name).length from by simp]
    exact List.take_left _ _
  · show ((download_worker inputs).items.take p.view.length).length = _
    rw [List.length_take]
    omega

/-- Witness for the amended C6 at the first snapshot of a one-URL task:
the late read has mutated the status and progress but kept the name. -/
theorem c6_snapshot_amended_witness :
    (lateView (download_worker [(("u" : String), FetchOutcome.failure 0 [] ("e"))]).items
        (ProgressPut.mk [Item.mk ("u.jpg") statusFetching 0] false)).map Item.name =
      (ProgressPut.mk [Item.mk ("u.jpg") statusFetching 0] false).view.map Item.name ∧
    (lateView (download_worker [(("u" : String), FetchOutcome.failure 0 [] ("e"))]).items
        (ProgressPut.mk [Item.mk ("u.jpg") statusFetching 0] false)).length =
      (ProgressPut.mk [Item.mk ("u.jpg") statusFetching 0] false).view.length :=
  c6_snapshot_amended [(("u" : String), FetchOutcome.failure 0 [] ("e"))]
    (ProgressPut.mk [Item.mk ("u.jpg") statusFetching 0] false) (by decide)

/-- C7: the `k`-th per-chunk snapshot reports
`floor(bytes_so_far * 100 / content_length)` when the content length is
known and nonzero, and 100 from the very first chunk otherwise. -/
theorem c7_progress_formula (total : Nat) (chunks : List (List Nat)) (base : List Item)
    (it : Item) :
    (streamChunksAux base total chunks it 0).2.2.length = (nonemptyChunks chunks).length ∧
    ∀ k, k < (nonemptyChunks chunks).length →
      (streamChunksAux base total chunks it 0).2.2[k]? =
        some (ProgressPut.mk (base ++
          [{it with progress :=
            if total ≠ 0 then bytesThrough chunks k * 100 / total else 100}]) false) := by
  refine ⟨streamChunksAux_puts_length base total chunks it 0, ?_⟩
  intro k hk
  have h := streamChunksAux_progress base total chunks it 0 k hk
  rw [h]
  rw [show chunkProgress total (0 + bytesThrough chunks k) =
      (if total ≠ 0 then bytesThrough chunks k * 100 / total else 100) from by
    simp [chunkProgress]]

/-- Witness for C7: one byte of four delivered reports 25 percent. -/
theorem c7_progress_formula_witness :
    (streamChunksAux [] 4 [[1], [2, 3]] (Item.mk ("a") statusFetching 0) 0).2.2[0]? =
      some (ProgressPut.mk [Item.mk ("a") statusFetching 25] false) ∧
    (0 : Nat) < (nonemptyChunks [[1], [2, 3]]).length := by
  have h := (c7_progress_formula 4 [[1], [2, 3]] [] (Item.mk ("a") statusFetching 0)).2 0
    (by decide)
  refine ⟨?_, by decide⟩
  rw [h]
  rfl

/-- C10: successive snapshots grow by at most one item appended at the
end, an item's name and position never change once it appears, and the
terminal snapshot holds exactly one item per submitted URL in submission
order. -/
theorem c10_snapshot_growth (inputs : List (String × FetchOutcome)) :
    List.Chain' nameStep (([] : List Item) :: (download_worker inputs).puts.map ProgressPut.view) ∧
    List.Pairwise (fun s t : List Item => s.map Item.name <+: t.map Item.name)
      ((download_worker inputs).puts.map ProgressPut.view) ∧
    (download_worker inputs).puts.getLast? =
      some (ProgressPut.mk (download_worker inputs).items true) ∧
    (download_worker inputs).items.length = inputs.length ∧
    (download_worker inputs).items.map Item.name =
      expectedNamesAux [] (inputs.map Prod.fst) := by
  have hchain := download_worker_chain nameStep inputs
    (fun s => ⟨List.prefix_refl _, by omega⟩)
    (fun st' url oc _ => processUrl_chain_names st' url oc)
  refine ⟨hchain, ?_, download_worker_last inputs, ?_, ?_⟩
  · have hweak : List.Chain' (fun s t : List Item => s.map Item.name <+: t.map Item.name)
        (([] : List Item) :: (download_worker inputs).puts.map ProgressPut.view) :=
      hchain.imp (fun _ _ h => h.1)
    have hpw := chain'_pairwise (fun a b c hab hbc => hab.trans hbc) hweak
    exact (List.pairwise_cons.mp hpw).2
  · rw [download_worker_items, newItemsList_length]
  · rw [download_worker_items, newItemsList_names]

/-! ## Facts about the filename resolver -/

/-- Unfolding of `sanitize_filename` with the lets expanded. -/
theorem sanitize_eq (name : String) (maxLen : Nat) :
    sanitize_filename name maxLen =
      (if maxLen < ((if name.data.isEmpty then ("file") else name).data.map
          (fun c => if isAllowedChar c then c else '_')).length
       then String.mk (((if name.data.isEmpty then ("file") else name).data.map
          (fun c => if isAllowedChar c then c else '_')).take maxLen)
       else String.mk ((if name.data.isEmpty then ("file") else name).data.map
          (fun c => if isAllowedChar c then c else '_'))) := rfl

/-- Membership in the substituted character list only produces characters
of `[A-Za-z0-9._-]`. -/
theorem mapAllowed_mem (l : List Char) (c : Char)
    (hc : c ∈ l.map (fun c => if isAllowedChar c then c else '_')) :
    isAllowedChar c = true := by
  obtain ⟨a, -, ha⟩ := List.mem_map.mp hc
  by_cases h : isAllowedChar a
  · rw [if_pos h] at ha
    rw [← ha]
    exact h
  · rw [if_neg h] at ha
    rw [← ha]
    decide

/-- Sanitised names never exceed the length cap. -/
theorem sanitize_length (name : String) (maxLen : Nat) :
    (sanitize_filename name maxLen).length ≤ maxLen := by
  rw [sanitize_eq]
  set l := ((if name.data.isEmpty then ("file") else name).data.map
    (fun c => if isAllowedChar c then c else '_')) with hl
  by_cases h : maxLen < l.length
  · rw [if_pos h]
    show (String.mk (l.take maxLen)).length ≤ maxLen
    simp [String.length, List.length_take]
  · rw [if_neg h]
    show (String.mk l).length ≤ maxLen
    simp only [String.length]
    omega

/-- Every character of a sanitised name is in `[A-Za-z0-9._-]`. -/
theorem sanitize_chars (name : String) (maxLen : Nat) :
    ∀ c ∈ (sanitize_filename name maxLen).data, isAllowedChar c = true := by
  intro c hc
  rw [sanitize_eq] at hc
  set l := ((if name.data.isEmpty then ("file") else name).data.map
    (fun c => if isAllowedChar c then c else '_')) with hl
  by_cases h : maxLen < l.length
  · rw [if_pos h] at hc
    have hc2 : c ∈ l := List.mem_of_mem_take (by simpa using hc)
    rw [hl] at hc2
    exact mapAllowed_mem _ c hc2
  · rw [if_neg h] at hc
    have hc2 : c ∈ l := by simpa using hc
    rw [hl] at hc2
    exact mapAllowed_mem _ c hc2

/-- A sanitised name is nonempty when the cap is positive. -/
theorem sanitize_pos (name : String) (maxLen : Nat) (h0 : 0 < maxLen) :
    0 < (sanitize_filename name maxLen).length := by
  rw [sanitize_eq]
  set l := ((if name.data.isEmpty then ("file") else name).data.map
    (fun c => if isAllowedChar c then c else '_')) with hl
  have hlpos : 0 < l.length := by
    rw [hl]
    simp only [List.length_map]
    split
    · decide
    · next hemp =>
      cases hdd : name.data with
      | nil => rw [hdd] at hemp; exact absurd rfl hemp
      | cons a t => simp [hdd]
  by_cases h : maxLen < l.length
  · rw [if_pos h]
    show 0 < (String.mk (l.take maxLen)).length
    simp only [String.length, List.length_take]
    omega
  · rw [if_neg h]
    show 0 < (String.mk l).length
    simp only [String.length]
    omega

/-- Sanitisation keeps a dot unless truncation cut it off, in which case
the result has exactly the maximal length. -/
theorem sanitize_dot (name : String) (maxLen : Nat) (hd : '.' ∈ name.data)
    (hne : name.data ≠ []) :
    '.' ∈ (sanitize_filename name maxLen).data ∨
      (sanitize_filename name maxLen).length = maxLen := by
  have hni : ¬ name.data.isEmpty = true := by
    cases hdd : name.data with
    | nil => exact absurd hdd hne
    | cons a t => simp [hdd]
  rw [sanitize_eq]
  rw [if_neg hni]
  have hdot : '.' ∈ name.data.map (fun c => if isAllowedChar c then c else '_') :=
    List.mem_map.mpr ⟨'.', hd, by decide⟩
  by_cases h : maxLen < (name.data.map (fun c => if isAllowedChar c then c else '_')).length
  · rw [if_pos h]
    right
    simp only [String.length, List.length_take]
    omega
  · rw [if_neg h]
    left
    exact hdot

/-- C8: the resolver strips the query, takes the final path segment of
the parsed URL, defaults and extends the candidate, and sanitises it: the
result is nonempty, at most 200 characters, made only of
`[A-Za-z0-9._-]`, retains an extension dot unless truncated at exactly
200, and on any parse failure it falls back to the default name — it is a
total function. -/
theorem c8_filename_resolver (url : String) :
    (extract_filename_from_url url).length ≤ 200 ∧
    (∀ c ∈ (extract_filename_from_url url).data, isAllowedChar c = true) ∧
    extract_filename_from_url url ≠ "" ∧
    ('.' ∈ (extract_filename_from_url url).data ∨ (extract_filename_from_url url).length = 200) ∧
    (∀ e : Unit,
      pyUrlparsePath (String.mk (url.data.takeWhile (fun c => c ≠ '?'))) = Except.error e →
      extract_filename_from_url url = "file.jpg") := by
  cases hres : pyUrlparsePath (String.mk (url.data.takeWhile (fun c => c ≠ '?'))) with
  | error e =>
    have hval : extract_filename_from_url url = sanitize_filename ("file.jpg") 200 := by
      simp only [extract_filename_from_url]
      rw [hres]
    have hfj : sanitize_filename ("file.jpg") 200 = "file.jpg" := by decide
    rw [hval, hfj]
    exact ⟨by decide, by decide, by decide, Or.inl (by decide), fun _ _ => rfl⟩
  | ok path =>
    have hval : extract_filename_from_url url =
        sanitize_filename
          (if (if (basenameStr path).data.isEmpty then ("file.jpg") else basenameStr path).data.contains '.'
            then (if (basenameStr path).data.isEmpty then ("file.jpg") else basenameStr path)
            else (if (basenameStr path).data.isEmpty then ("file.jpg") else basenameStr path) ++ ".jpg")
          200 := by
      simp only [extract_filename_from_url]
      rw [hres]
    set b1 := if (basenameStr path).data.isEmpty then ("file.jpg") else basenameStr path with hb1
    set b2 := if b1.data.contains '.' then b1 else b1 ++ ".jpg" with hb2
    have hb1ne : b1.data ≠ [] := by
      rw [hb1]
      split
      · decide
      · next hemp =>
        intro hni
        rw [hni] at hemp
        exact hemp rfl
    have hb2dot : '.' ∈ b2.data := by
      rw [hb2]
      split
      · next h => exact List.mem_of_elem_eq_true h
      · rw [String.data_append]
        refine List.mem_append.mpr (Or.inr ?_)
        decide
    have hb2ne : b2.data ≠ [] := by
      rw [hb2]
      split
      · exact hb1ne
      · rw [String.data_append]
        intro hni
        rcases List.append_eq_nil.mp hni with ⟨-, h2⟩
        cases h2
    rw [hval]
    refine ⟨sanitize_length _ _, sanitize_chars _ _, ?_, sanitize_dot _ _ hb2dot hb2ne, ?_⟩
    · intro heq
      have hpos := sanitize_pos b2 200 (by omega)
      rw [heq] at hpos
      simp [String.length] at hpos
    · intro e he
      simp at he

/-- Witness for C8 on a URL that makes `urlparse` raise (unbalanced
bracket in the netloc): the resolver falls back to the default name. -/
theorem c8_filename_resolver_witness :
    pyUrlparsePath (String.mk (("http://[x/a.png" : String).data.takeWhile (fun c => c ≠ '?'))) =
      Except.error () ∧
    extract_filename_from_url ("http://[x/a.png") = "file.jpg" :=
  ⟨rfl, (c8_filename_resolver ("http://[x/a.png")).2.2.2.2 () rfl⟩

/-- C9: a submission whose parsed URL list is empty is rejected with HTTP
400 before any task is created: no task id is returned, the queue
registry is unchanged and no worker thread is started. -/
theorem c9_empty_submit (raw freshId : String) (reg : List String)
    (h : parseUrls raw = []) :
    start raw freshId reg = StartResult.mk 400 none reg false := by
  unfold start
  rw [h]
  rfl

/-- Witness for C9 on a raw text made only of whitespace lines. -/
theorem c9_empty_submit_witness :
    parseUrls (" \n\t\n") = [] ∧
    start (" \n\t\n") ("tid") ["q1"] = StartResult.mk 400 none ["q1"] false :=
  ⟨by decide, c9_empty_submit (" \n\t\n") ("tid") ["q1"] (by decide)⟩

/-- Witness for C3 on a concrete one-URL task: the stream delivers the
whole queue and the first buffered snapshot is non-terminal. -/
theorem c3_fifo_terminal_witness :
    deliverStream (download_worker [(("u" : String), FetchOutcome.success 0 [])]).puts =
      (download_worker [(("u" : String), FetchOutcome.success 0 [])]).puts ∧
    (ProgressPut.mk [Item.mk ("u.jpg") statusFetching 0] false).done = false :=
  ⟨(c3_fifo_terminal [(("u" : String), FetchOutcome.success 0 [])]).1,
    (c3_fifo_terminal [(("u" : String), FetchOutcome.success 0 [])]).2.2
      (ProgressPut.mk [Item.mk ("u.jpg") statusFetching 0] false) (by decide)⟩
